import Mathlib

/-!
# openBuildNet — verification of the SMN scheduler spec and the SMNChai library

This file contains a shallow embedding of two parts of the openBuildNet
repository:

* `SMNChai`: a direct embedding of the scripting-layer standard library
  (`src/smnchai/libraries/stdlib.chai`): the `node()` constructor for node
  definitions and the `VPort` virtual-port class.

* `OBN`: a model of the System Management Node's coordinator (the GC):
  event queue, trigger expansion, wave scheduling, the per-tick
  UPDATE_Y / UPDATE_X barrier protocol and the failure policy.  The C++
  implementation of the coordinator is not part of the source tree made
  available here (only its tests and callers are), so the coordinator is
  modelled from the specification text.

Theorems at the end of the file settle the specification's claims.
-/

set_option maxHeartbeats 1000000

namespace SMNChai

/-- A real port handle as seen by the scripting layer (`PortInfo`):
`ptype` is 0 for input, 1 for output, 2 for data/any. -/
structure PortInfo where
  node : String
  port : String
  ptype : Nat
deriving DecidableEq, Repr

/-- `port_type(p)` of the scripting API. -/
def port_type (p : PortInfo) : Nat := p.ptype

/-- Virtual port (class `VPort` in stdlib.chai).  `m_type` is 0 for a
virtual input port, 1 for a virtual output port, 2 for data/any. -/
structure VPort where
  m_type : Nat
  m_ins : List PortInfo
  m_outs : List PortInfo
  m_realports : List PortInfo
deriving DecidableEq, Repr

/-- The `VPort(t_type)` constructor. -/
def VPort.init (t : Nat) : VPort := ⟨t, [], [], []⟩

/-- `VPort::virtual_add_input` from stdlib.chai.  On success it returns the
updated virtual port together with the list of `connect(src, dst)` calls
performed. -/
def virtual_add_input (v : VPort) (p : PortInfo) :
    Except String (VPort × List (PortInfo × PortInfo)) :=
  if v.m_type = 1 then .error "A virtual output port cannot have an input."
  else if v.m_type = 0 ∧ v.m_ins ≠ [] then
    .error "A virtual input port cannot have multiple inputs."
  else if port_type p = 0 then
    .error "An input port cannot be a source of a virtual port."
  else .ok ({ v with m_ins := v.m_ins ++ [p] }, v.m_realports.map (fun r => (p, r)))

/-- `VPort::virtual_add_output` from stdlib.chai. -/
def virtual_add_output (v : VPort) (p : PortInfo) :
    Except String (VPort × List (PortInfo × PortInfo)) :=
  if v.m_type = 0 then .error "A virtual input port cannot have an output."
  else if port_type p = 1 then
    .error "An output port cannot be a target of a virtual port."
  else .ok ({ v with m_outs := v.m_outs ++ [p] }, v.m_realports.map (fun r => (r, p)))

/-- `VPort::virtual_assign` from stdlib.chai. -/
def virtual_assign (v : VPort) (p : PortInfo) :
    Except String (VPort × List (PortInfo × PortInfo)) :=
  if v.m_type ≠ port_type p ∧ port_type p ≠ 2 then
    .error "Types of virtual port and actual port are incompatible."
  else if v.m_type = 1 then
    if v.m_realports ≠ [] then
      .error "A virtual output port cannot be assigned to multiple ports."
    else .ok ({ v with m_realports := v.m_realports ++ [p] },
      v.m_outs.map (fun o => (p, o)))
  else .ok ({ v with m_realports := v.m_realports ++ [p] },
    v.m_ins.map (fun i => (i, p)) ++
      (if v.m_type ≠ 0 then v.m_outs.map (fun o => (p, o)) else []))

/-- Invariant of `VPort`: an input-type virtual port holds at most one input
source, and an output-type virtual port is assigned to at most one real
port. -/
def VPinv (v : VPort) : Prop :=
  (v.m_type = 0 → v.m_ins.length ≤ 1) ∧ (v.m_type = 1 → v.m_realports.length ≤ 1)

instance (v : VPort) : Decidable (VPinv v) := by unfold VPinv; infer_instance

/-- Reference to another block in a `depends` list: either a block id
(integer) or a block name (string). -/
inductive DepRef
  | byId (i : Nat)
  | byName (s : String)
deriving DecidableEq, Repr

/-- The `inputs` field of a block definition: a bare string (a singleton
port name), a vector of names (all with direct feedthrough), or a map from
name to a direct-feedthrough flag. -/
inductive InputsDef
  | single (s : String)
  | vec (l : List String)
  | fmap (l : List (String × Bool))
deriving DecidableEq, Repr

/-- The `outputs` / `triggers` field of a block definition: a bare string or
a vector of names. -/
inductive NamesDef
  | single (s : String)
  | vec (l : List String)
deriving DecidableEq, Repr

/-- A block definition Map as consumed by `node()` in stdlib.chai.  Absent
Map fields are `none`.  The sampling time is an abstract number of
microseconds. -/
structure BlockDef where
  name : Option String := none
  id : Option Nat := none
  sampling : Option Nat := none
  inputs : Option InputsDef := none
  outputs : Option NamesDef := none
  triggers : Option NamesDef := none
  depends : Option (List DepRef) := none
deriving DecidableEq, Repr

/-- A node definition Map as consumed by `node()` in stdlib.chai. -/
structure NodeDef where
  name : Option String := none
  inputs : Option (List String) := none
  outputs : Option (List String) := none
  dataports : Option (List String) := none
  blocks : Option (List BlockDef) := none
  updates : Option (List BlockDef) := none
deriving DecidableEq, Repr

/-- The scripting-layer Node object built by `node()`: the result of the
`new_node` / `add_input` / `add_output` / `add_dataport` / `add_block` /
`input_to_block` / `output_from_block` / `input_triggers_block` /
`add_internal_dependency` calls the function performs. -/
structure ChaiNode where
  name : String
  inputs : List String := []
  outputs : List String := []
  dataports : List String := []
  blocks : List (Nat × Nat) := []
  inputToBlock : List (Nat × String × Bool) := []
  outputFromBlock : List (Nat × String) := []
  triggerToBlock : List (Nat × String) := []
  internalDeps : List (Nat × Nat) := []
deriving DecidableEq, Repr

/-- Normalisation of an `inputs` block field into (name, feedthrough) pairs:
a bare string becomes a one-element vector, a vector gives every input
direct feedthrough, a map keeps its flags (lines 136-154 of stdlib.chai). -/
def inputsAsList : InputsDef → List (String × Bool)
  | .single s => [(s, true)]
  | .vec l => l.map (fun s => (s, true))
  | .fmap l => l

/-- Normalisation of an `outputs` / `triggers` field into a vector. -/
def namesAsList : NamesDef → List String
  | .single s => [s]
  | .vec l => l

/-- The `input_to_block` calls made for one block definition under id `id`. -/
def optInputs (bd : BlockDef) (id : Nat) : List (Nat × String × Bool) :=
  match bd.inputs with
  | none => []
  | some d => (inputsAsList d).map (fun x => (id, x.1, x.2))

/-- The `output_from_block` calls made for one block definition. -/
def optOutputs (bd : BlockDef) (id : Nat) : List (Nat × String) :=
  match bd.outputs with
  | none => []
  | some d => (namesAsList d).map (fun s => (id, s))

/-- The `input_triggers_block` calls made for one block definition. -/
def optTriggers (bd : BlockDef) (id : Nat) : List (Nat × String) :=
  match bd.triggers with
  | none => []
  | some d => (namesAsList d).map (fun s => (id, s))

/-- The effect on the node of `add_block` plus the input / output / trigger
wiring of one block definition under id `id` (lines 117 and 135-184 of
stdlib.chai). -/
def blockWire (n : ChaiNode) (id : Nat) (bd : BlockDef) : ChaiNode :=
  { n with
    blocks := n.blocks ++ [(id, bd.sampling.getD 0)],
    inputToBlock := n.inputToBlock ++ optInputs bd id,
    outputFromBlock := n.outputFromBlock ++ optOutputs bd id,
    triggerToBlock := n.triggerToBlock ++ optTriggers bd id }

/-- One iteration of the block loop of `node()` (lines 114-185 of
stdlib.chai): add the block (id defaults to the loop index `i`), record the
optional name in the name-to-id map (a duplicate name throws), then wire
the block's inputs, outputs and triggers under the chosen id. -/
def procBlock (n : ChaiNode) (i : Nat) (bmap : List (String × Nat)) (bd : BlockDef) :
    Except String (ChaiNode × List (String × Nat) × Nat) :=
  match bd.name with
  | none => .ok (blockWire n (bd.id.getD i) bd, bmap, bd.id.getD i)
  | some nm =>
    if (bmap.lookup nm).isSome then
      .error ("Block " ++ nm ++ " on node " ++ n.name ++ " already existed.")
    else .ok (blockWire n (bd.id.getD i) bd, bmap ++ [(nm, bd.id.getD i)], bd.id.getD i)

/-- The first pass of `node()` over the block definitions, threading the
loop index, the name-to-id map and the vector of block ids. -/
def procBlocks (n : ChaiNode) (i : Nat) (bmap : List (String × Nat)) (bids : List Nat) :
    List BlockDef → Except String (ChaiNode × List (String × Nat) × List Nat)
  | [] => .ok (n, bmap, bids)
  | bd :: rest =>
    match procBlock n i bmap bd with
    | .error e => .error e
    | .ok (n', bmap', id) => procBlocks n' (i + 1) bmap' (bids ++ [id]) rest

/-- Resolution of one `depends` entry (lines 195-207 of stdlib.chai): an
integer is a block id, a string is looked up in the name-to-id map and an
unknown name throws. -/
def resolveDep (bmap : List (String × Nat)) : DepRef → Except String Nat
  | .byId j => .ok j
  | .byName s =>
    match bmap.lookup s with
    | some j => .ok j
    | none => .error ("depends field: block name " ++ s ++ " does not exist.")

/-- Adding the internal dependencies of a single block: every resolved
source becomes an `add_internal_dependency(src, dst)` call. -/
def addDeps1 (n : ChaiNode) (dst : Nat) (bmap : List (String × Nat)) :
    List DepRef → Except String ChaiNode
  | [] => .ok n
  | d :: rest =>
    match resolveDep bmap d with
    | .error e => .error e
    | .ok src =>
      addDeps1 { n with internalDeps := n.internalDeps ++ [(src, dst)] } dst bmap rest

/-- The second pass of `node()` (lines 187-212 of stdlib.chai): for every
block definition carrying a `depends` field, add its internal dependencies
with destination `blockIDs[i]`. -/
def addDeps (n : ChaiNode) (bmap : List (String × Nat)) (bids : List Nat) (i : Nat) :
    List BlockDef → Except String ChaiNode
  | [] => .ok n
  | bd :: rest =>
    match bd.depends with
    | none => addDeps n bmap bids (i + 1) rest
    | some ds =>
      match addDeps1 n (bids.getD i 0) bmap ds with
      | .error e => .error e
      | .ok n' => addDeps n' bmap bids (i + 1) rest

/-- The block definitions `node()` works on: the `blocks` field if present,
else the `updates` field, else nothing (lines 77-84 of stdlib.chai). -/
def chosenBlocks (nodedef : NodeDef) : List BlockDef :=
  match nodedef.blocks with
  | some l => l
  | none => nodedef.updates.getD []

/-- The node after `new_node` and the `add_input` / `add_output` /
`add_dataport` loops of `node()` (lines 93-108 of stdlib.chai). -/
def initNode (nodedef : NodeDef) (nm : String) : ChaiNode :=
  { name := nm,
    inputs := nodedef.inputs.getD [],
    outputs := nodedef.outputs.getD [],
    dataports := nodedef.dataports.getD [] }

/-- The `node()` function of stdlib.chai: checks the definition, creates the
node, adds its ports, its blocks with their wiring, and the internal
dependencies. -/
def node (nodedef : NodeDef) : Except String ChaiNode :=
  match nodedef.name with
  | none => .error "Node definition must have a valid name."
  | some nm =>
    if nodedef.updates.isSome ∧ nodedef.blocks.isSome then
      .error "In node definition, fields updates and blocks cannot both exist."
    else
      if ¬ (chosenBlocks nodedef).all (fun bd => bd.sampling.isSome) then
        .error "In block definition, sampling time is required."
      else
        match procBlocks (initNode nodedef nm) 0 [] [] (chosenBlocks nodedef) with
        | .error e => .error e
        | .ok (n1, bmap, bids) => addDeps n1 bmap bids 0 (chosenBlocks nodedef)

end SMNChai

namespace OBN

/-!
The System Management Node's coordinator (the GC).  The C++ implementation
of the SMN core is not part of the sources available here (only its tests,
node programs and the scripting layer that feeds it a `SystemConfig` are),
so every definition in this namespace is modelled from the specification:
its data model (spec section 3), the event queue (4.4), the tick protocol
(4.5) and the failure policy (4.6).
-/

/-- Reason attached to an event-queue entry (spec 4.4). -/
inductive Reason
  | Periodic
  | Triggered
  | Irregular
deriving DecidableEq, Repr

/-- Modelled from the spec: a block of a node (spec section 3, Block):
period (0 is event-only), feedthrough inputs, triggering inputs, output
ports and internal dependencies (local ids of same-node predecessors). -/
structure Block where
  period : Nat
  feedthrough_inputs : List String := []
  triggering_inputs : List String := []
  output_ports : List String := []
  internal_deps : List Nat := []
deriving DecidableEq, Repr

/-- Modelled from the spec: a node declaration (spec section 3, Node). -/
structure NodeDecl where
  name : String
  blocks : List Block
  needs_state_update : Bool := true
deriving DecidableEq, Repr

/-- Modelled from the spec: a connection from an output port to an input
port (spec section 3, Connection). -/
structure Connection where
  src_node : Nat
  src_port : String
  dst_node : Nat
  dst_port : String
deriving DecidableEq, Repr

/-- Modelled from the spec: the immutable `SystemConfig` the coordinator
consumes (spec section 6). -/
structure SystemConfig where
  nodes : List NodeDecl
  connections : List Connection := []
  final_time : Nat
deriving DecidableEq, Repr

/-- A block is addressed by (node id, local block id). -/
abbrev Blk := Nat × Nat

/-- Number of registered nodes. -/
def numNodes (cfg : SystemConfig) : Nat := cfg.nodes.length

/-- Node declaration lookup (out-of-range ids give an empty declaration). -/
def nodeDecl (cfg : SystemConfig) (n : Nat) : NodeDecl :=
  (cfg.nodes[n]?).getD { name := "", blocks := [] }

/-- Block lookup (invalid addresses give an inert event-only block). -/
def blk (cfg : SystemConfig) (b : Blk) : Block :=
  (((nodeDecl cfg b.1).blocks)[b.2]?).getD { period := 0 }

/-- All blocks of the configuration in global registration order: nodes in
declaration order, blocks in local order (the stable tiebreak order of
spec 4.4). -/
def allBlocksList (cfg : SystemConfig) : List Blk :=
  (List.range (numNodes cfg)).flatMap
    (fun n => (List.range (nodeDecl cfg n).blocks.length).map (fun k => (n, k)))

/-- The set of all registered blocks. -/
def allBlocksF (cfg : SystemConfig) : Finset Blk := (allBlocksList cfg).toFinset

/-- Listing of a set of blocks in global registration order. -/
def blockList (cfg : SystemConfig) (S : Finset Blk) : List Blk :=
  (allBlocksList cfg).filter (fun b => b ∈ S)

/-- Trigger edge (spec 4.5 step 2): block `a` has an output port connected
to a triggering input of block `b`. -/
def trigB (cfg : SystemConfig) (a b : Blk) : Bool :=
  (blk cfg a).output_ports.any (fun p =>
    cfg.connections.any (fun c =>
      c.src_node == a.1 && c.src_port == p && c.dst_node == b.1 &&
        (blk cfg b).triggering_inputs.contains c.dst_port))

/-- Wave-DAG edge (spec 4.5 step 3): internal dependency within a node, or
cross-node feedthrough through a connection. -/
def depEdgeB (cfg : SystemConfig) (a b : Blk) : Bool :=
  (a.1 == b.1 && (blk cfg b).internal_deps.contains a.2) ||
  (blk cfg a).output_ports.any (fun p =>
    cfg.connections.any (fun c =>
      c.src_node == a.1 && c.src_port == p && c.dst_node == b.1 &&
        (blk cfg b).feedthrough_inputs.contains c.dst_port))

/-- One step of trigger expansion: add every registered block having a
trigger edge from the current set. -/
def trigStep (cfg : SystemConfig) (S : Finset Blk) : Finset Blk :=
  S ∪ (allBlocksF cfg).filter (fun b => ∃ a ∈ S, trigB cfg a b = true)

/-- Iterated trigger expansion. -/
def trigClosureAux (cfg : SystemConfig) : Nat → Finset Blk → Finset Blk
  | 0, S => S
  | k + 1, S => trigClosureAux cfg k (trigStep cfg S)

/-- The fixed point of trigger expansion (spec 4.5 step 2): enough
iterations to stabilise over the finite block set. -/
def trigClosure (cfg : SystemConfig) (S : Finset Blk) : Finset Blk :=
  trigClosureAux cfg ((allBlocksF cfg).card + 1) (S ∩ allBlocksF cfg)

/-- The blocks of `rem` with no uncompleted predecessor: the next maximal
antichain (spec 4.5 step 4). -/
def waveFront (cfg : SystemConfig) (rem : Finset Blk) : Finset Blk :=
  rem.filter (fun b => ∀ a ∈ rem, ¬ depEdgeB cfg a b = true)

/-- Wave decomposition of the fired set; `none` reports a dependency cycle
(spec 4.5 step 3, `DependencyCycle`). -/
def wavesAux (cfg : SystemConfig) : Nat → Finset Blk → Option (List (Finset Blk))
  | 0, rem => if rem = ∅ then some [] else none
  | k + 1, rem =>
    if rem = ∅ then some []
    else
      let w := waveFront cfg rem
      if w = ∅ then none
      else (wavesAux cfg k (rem \ w)).map (fun ws => w :: ws)

/-- Topological waves of a fired set (spec 4.5 steps 3-4). -/
def waves (cfg : SystemConfig) (F : Finset Blk) : Option (List (Finset Blk)) :=
  wavesAux cfg F.card F

/-- Report and wire events observable from one run (spec 4.1 messages and
section 6 report events combined into one trace alphabet). -/
inductive FinReason
  | done
  | errored
deriving DecidableEq, Repr

/-- Identifier of an ack-collection phase within one tick: UPDATE_Y of a
given wave, or UPDATE_X; `second` marks the resend attempt. -/
inductive PhaseId
  | y (wave : Nat) (second : Bool)
  | x (second : Bool)
deriving DecidableEq, Repr

/-- The observable events of a run: report-bus events plus the messages the
coordinator sends and the acks it observes. -/
inductive Event
  | TickStarted (t : Nat)
  | TickCompleted (t : Nat) (fired : List Blk) (waves : List (List Blk))
  | SendY (t : Nat) (node : Nat) (mask : List Nat) (resend : Bool)
  | AckY (t : Nat) (node : Nat) (mask : List Nat)
  | SendX (t : Nat) (node : Nat) (mask : List Nat) (resend : Bool)
  | AckX (t : Nat) (node : Nat) (mask : List Nat)
  | NodeTimedOut (node : Nat)
  | BroadcastTerm (t : Nat)
  | Finished (reason : FinReason)
deriving DecidableEq, Repr

/-- Node-side behaviour the coordinator is exposed to: whether a node acks
a given phase of a given tick in time, and the `SIM_EVENT` requests
(node, block, fire time) received during the tick at `t`. -/
structure NodeBehavior where
  ack : Nat → PhaseId → Nat → Bool
  events : Nat → List (Nat × Nat × Nat)

/-- Arrival order of acks: for each tick and phase, the order (an arbitrary
interleaving chosen by the transport) in which the acking nodes' messages
reach the coordinator. -/
abbrev AckSchedule := Nat → PhaseId → List Nat → List Nat

/-- An entry of the event queue (spec 4.4). -/
structure QEntry where
  fire_time : Nat
  node : Nat
  block : Nat
  reason : Reason
deriving DecidableEq, Repr

/-- Per-node liveness (spec section 3). -/
inductive Liveness
  | Unregistered
  | Registered
  | Ready
  | Running
  | Stopped
  | Errored
  | TimedOut
deriving DecidableEq, Repr

/-- Coordinator state at a tick boundary: virtual time, event queue and
per-node liveness. -/
structure GCState where
  t : Nat
  queue : List QEntry
  live : Nat → Liveness

/-- Fold computing the minimum fire time. -/
def minT : List Nat → Nat → Nat
  | [], m => m
  | x :: xs, m => minT xs (min m x)

/-- Minimum fire time of a (nonempty) queue; 0 on the empty queue. -/
def minTime : List QEntry → Nat
  | [] => 0
  | e :: es => minT (es.map (fun x => x.fire_time)) e.fire_time

/-- Node ids appearing in a block list, in order of first appearance. -/
def nodesOf (l : List Blk) : List Nat := (l.map (fun b => b.1)).dedup

/-- The bitmask (sorted local block ids) of node `n` within a block list. -/
def maskOf (l : List Blk) (n : Nat) : List Nat :=
  (l.filter (fun b => b.1 == n)).map (fun b => b.2)

/-- Sequential processing of arriving acks (spec 4.6): an ack from a
pending node completes it and is recorded; a duplicate ack is discarded. -/
def procAcks (mkAck : Nat → Event) : List Nat → Finset Nat → Finset Nat × List Event
  | [], pending => (pending, [])
  | a :: rest, pending =>
    if a ∈ pending then
      let r := procAcks mkAck rest (pending.erase a)
      (r.1, mkAck a :: r.2)
    else procAcks mkAck rest pending

/-- One ack-collection phase with the retry policy of spec 4.6: send to all
nodes, collect acks under the deadline, resend the same message once to the
silent nodes, collect again; the second component is the set of nodes that
missed both deadlines. -/
def phase (mkSend : Bool → Nat → Event) (mkAck : Nat → Event)
    (ack1 ack2 : Nat → Bool) (sched1 sched2 : List Nat → List Nat) (ns : List Nat) :
    List Event × Finset Nat :=
  let sends1 := ns.map (mkSend false)
  let r1 := procAcks mkAck (sched1 (ns.filter ack1)) ns.toFinset
  if r1.1 = ∅ then (sends1 ++ r1.2, ∅)
  else
    let missing1 := ns.filter (fun n => n ∈ r1.1)
    let sends2 := missing1.map (mkSend true)
    let r2 := procAcks mkAck (sched2 (missing1.filter ack2)) r1.1
    (sends1 ++ r1.2 ++ sends2 ++ r2.2, r2.1)

/-- The UPDATE_Y waves of one tick (spec 4.5 step 4): walk the topological
waves; per wave send one `SIM_Y(t, mask)` per node and collect acks; a node
missing its ack twice aborts the walk and is reported timed out. -/
def runWaves (cfg : SystemConfig) (beh : NodeBehavior) (sched : AckSchedule) (t : Nat) :
    Nat → List (Finset Blk) → List Event × Option (Finset Nat)
  | _, [] => ([], none)
  | wi, w :: rest =>
    let wl := blockList cfg w
    let ns := nodesOf wl
    let r := phase (fun rs n => .SendY t n (maskOf wl n) rs) (fun n => .AckY t n (maskOf wl n))
      (beh.ack t (.y wi false)) (beh.ack t (.y wi true))
      (sched t (.y wi false)) (sched t (.y wi true)) ns
    if r.2 = ∅ then
      let rr := runWaves cfg beh sched t (wi + 1) rest
      (r.1 ++ rr.1, rr.2)
    else (r.1, some r.2)

/-- The nodes receiving `SIM_X` at a tick (spec 4.5 step 5): nodes with at
least one fired block whose `needs_state_update` flag is set. -/
def xNodes (cfg : SystemConfig) (firedL : List Blk) : List Nat :=
  (nodesOf firedL).filter (fun n => (nodeDecl cfg n).needs_state_update)

/-- Validity of a block address. -/
def validBlkB (cfg : SystemConfig) (b : Blk) : Bool :=
  b.1 < numNodes cfg && b.2 < (nodeDecl cfg b.1).blocks.length

/-- Reschedule (spec 4.5 step 6): every fired block with positive period is
pushed back at `t + period`. -/
def rescheduleEntries (cfg : SystemConfig) (t : Nat) (firedL : List Blk) : List QEntry :=
  firedL.filterMap (fun b =>
    if 0 < (blk cfg b).period then
      some { fire_time := t + (blk cfg b).period, node := b.1, block := b.2, reason := .Periodic }
    else none)

/-- Irregular `SIM_EVENT` requests received during the tick (spec 4.5 step
6): valid requests with fire time at or after `t` are pushed, late ones are
discarded. -/
def irregularEntries (cfg : SystemConfig) (t : Nat) (evs : List (Nat × Nat × Nat)) :
    List QEntry :=
  evs.filterMap (fun x =>
    if t ≤ x.2.2 ∧ validBlkB cfg (x.1, x.2.1) = true then
      some { fire_time := x.2.2, node := x.1, block := x.2.1, reason := .Irregular }
    else none)

/-- Liveness after a timeout cascade: timed-out nodes become `TimedOut`,
running nodes are stopped by the `SIM_TERM` broadcast (spec 4.6, I4). -/
def cascadeLive (live : Nat → Liveness) (touts : Finset Nat) : Nat → Liveness :=
  fun n => if n ∈ touts then .TimedOut else if live n = .Running then .Stopped else live n

/-- Outcome of one tick: the barrier completed, or the run must transition
to `Errored`. -/
inductive Outcome
  | ok
  | err
deriving DecidableEq, Repr

/-- The set of blocks fired at the tick popping the minimum of queue `q`
(spec 4.5 steps 1-2): the due entries expanded through the triggers. -/
def tickFired (cfg : SystemConfig) (q : List QEntry) : Finset Blk :=
  trigClosure cfg
    (((q.filter (fun e => e.fire_time == minTime q)).map (fun e => (e.node, e.block))).toFinset)

/-- The queue entries left after popping the minimum. -/
def tickRest (q : List QEntry) : List QEntry :=
  q.filter (fun e => e.fire_time != minTime q)

/-- The UPDATE_X phase of one tick (spec 4.5 step 5): send `SIM_X(t, mask)`
to every node with fired blocks and `needs_state_update`, collect acks with
the retry policy. -/
def tickXPhase (cfg : SystemConfig) (beh : NodeBehavior) (sched : AckSchedule)
    (m : Nat) (firedL : List Blk) : List Event × Finset Nat :=
  phase (fun rs n => .SendX m n (maskOf firedL n) rs) (fun n => .AckX m n (maskOf firedL n))
    (beh.ack m (.x false)) (beh.ack m (.x true))
    (sched m (.x false)) (sched m (.x true)) (xNodes cfg firedL)

/-- One tick of the coordinator (spec 4.5, steps 1-6): advance time to the
queue minimum, pop the due entries, expand triggers, build the waves, run
the UPDATE_Y barrier, broadcast UPDATE_X, then reschedule.  A timeout or a
dependency cycle aborts the tick into the `Errored` cascade of spec 4.6. -/
def tick (cfg : SystemConfig) (beh : NodeBehavior) (sched : AckSchedule) (st : GCState) :
    GCState × List Event × Outcome :=
  let m := minTime st.queue
  let firedL := blockList cfg (tickFired cfg st.queue)
  match waves cfg (tickFired cfg st.queue) with
  | none =>
    ({ t := m, queue := tickRest st.queue, live := cascadeLive st.live ∅ },
      [.TickStarted m, .BroadcastTerm m], .err)
  | some ws =>
    let yr := runWaves cfg beh sched m 0 ws
    match yr.2 with
    | some touts =>
      ({ t := m, queue := (tickRest st.queue).filter (fun e => ¬ e.node ∈ touts),
          live := cascadeLive st.live touts },
        .TickStarted m :: yr.1 ++
          ((nodesOf firedL).filter (fun n => n ∈ touts)).map (fun n => .NodeTimedOut n) ++
          [.BroadcastTerm m], .err)
    | none =>
      let xr := tickXPhase cfg beh sched m firedL
      if xr.2 = ∅ then
        ({ t := m,
            queue := tickRest st.queue ++ rescheduleEntries cfg m firedL ++
              irregularEntries cfg m (beh.events m),
            live := st.live },
          .TickStarted m :: yr.1 ++ xr.1 ++
            [.TickCompleted m firedL (ws.map (blockList cfg))], .ok)
      else
        ({ t := m, queue := (tickRest st.queue).filter (fun e => ¬ e.node ∈ xr.2),
            live := cascadeLive st.live xr.2 },
          .TickStarted m :: yr.1 ++ xr.1 ++
            ((xNodes cfg firedL).filter (fun n => n ∈ xr.2)).map (fun n => .NodeTimedOut n) ++
            [.BroadcastTerm m], .err)

/-- The coordinator run loop (spec 4.5 step 7 and the Stopping transition):
tick until the queue is empty or `final_time` is reached, then broadcast
`SIM_TERM` and finish; an erroring tick finishes with reason `Errored`.
`fuel` bounds the number of ticks; an exhausted run emits no `Finished`. -/
def run (cfg : SystemConfig) (beh : NodeBehavior) (sched : AckSchedule) :
    Nat → GCState → List Event
  | 0, _ => []
  | fuel + 1, st =>
    if st.queue.isEmpty then [.BroadcastTerm st.t, .Finished .done]
    else
      let r := tick cfg beh sched st
      match r.2.2 with
      | .err => r.2.1 ++ [.Finished .errored]
      | .ok =>
        if cfg.final_time ≤ r.1.t then r.2.1 ++ [.BroadcastTerm r.1.t, .Finished .done]
        else r.2.1 ++ run cfg beh sched fuel r.1

/-- Initial queue population (spec 4.4): every block with positive period
at `t = 0` with reason `Periodic`. -/
def initQueue (cfg : SystemConfig) : List QEntry :=
  (allBlocksList cfg).filterMap (fun b =>
    if 0 < (blk cfg b).period then
      some { fire_time := 0, node := b.1, block := b.2, reason := .Periodic }
    else none)

/-- Initial coordinator state: virtual time 0, the initial queue, every
node running. -/
def initState (cfg : SystemConfig) : GCState :=
  { t := 0, queue := initQueue cfg, live := fun _ => .Running }

/-- The arrival order in which acks are processed exactly as sent. -/
def idSched : AckSchedule := fun _ _ l => l

/-- The behaviour of a federation whose nodes always ack in time and send
no irregular events. -/
def allAck : NodeBehavior := { ack := fun _ _ _ => true, events := fun _ => [] }

/-- The virtual time carried by a `TickStarted` event. -/
def tsOf : Event → Option Nat
  | .TickStarted t => some t
  | _ => none

/-- Virtual times of the `TickStarted` events of a trace. -/
def tickTimes (tr : List Event) : List Nat := tr.filterMap tsOf

/-- Queue invariant: no entry is scheduled before the current virtual time. -/
def QInv (st : GCState) : Prop := ∀ e ∈ st.queue, st.t ≤ e.fire_time

/-- The `(t, fired list, wave partition)` payload of a `TickCompleted`
event; `none` on every other event. -/
def tcOf : Event → Option (Nat × List Blk × List (List Blk))
  | .TickCompleted t f w => some (t, f, w)
  | _ => none

/-- The sequence of completed-tick reports of a trace. -/
def tickCompleteds (tr : List Event) : List (Nat × List Blk × List (List Blk)) :=
  tr.filterMap tcOf

/-- An ack schedule delivering each burst of acks in reverse order. -/
def revSched : AckSchedule := fun _ _ l => l.reverse

end OBN


-- Concrete instances used by the witnesses below.

/-- A block definition exercising every optional field of `node()`. -/
def c9bd : SMNChai.BlockDef :=
  { sampling := some 5, inputs := some (.vec ["u"]), outputs := some (.vec ["y"]),
    triggers := some (.single "u"), depends := some [.byId 0] }

/-- A one-block node definition. -/
def c9d : SMNChai.NodeDef := { name := some "m", blocks := some [c9bd] }

/-- The `ChaiNode` that `node c9d` is expected to build. -/
def c9n : SMNChai.ChaiNode :=
  { name := "m", blocks := [(0, 5)], inputToBlock := [(0, "u", true)],
    outputFromBlock := [(0, "y")], triggerToBlock := [(0, "u")], internalDeps := [(0, 0)] }

/-- Demonstration configuration: one node with one block of period 1000 and
final time 5000 (spec section 8, scenario 1). -/
def demo1 : OBN.SystemConfig :=
  { nodes := [{ name := "a", blocks := [{ period := 1000, output_ports := ["y"] }] }],
    final_time := 5000 }

/-- Demonstration configuration: block A with period 3000 triggering the
event-only block of a node that skips UPDATE_X (spec section 8, scenario 4
and the `need_updateX(false)` node of test2.chai). -/
def demo2 : OBN.SystemConfig :=
  { nodes := [{ name := "A", blocks := [{ period := 3000, output_ports := ["y"] }] },
              { name := "C", blocks := [{ period := 0, triggering_inputs := ["u"] }],
                needs_state_update := false }],
    connections := [{ src_node := 0, src_port := "y", dst_node := 1, dst_port := "u" }],
    final_time := 6000 }

/-- The behaviour of a federation whose nodes never ack. -/
def behTO : OBN.NodeBehavior := { ack := fun _ _ _ => false, events := fun _ => [] }

-- ====================== SUPPORTING LEMMAS ======================

namespace SMNChai

lemma lookup_append_isSome (l1 l2 : List (String × Nat)) (a : String) :
    (((l1 ++ l2).lookup a).isSome) = (((l1.lookup a).isSome) || ((l2.lookup a).isSome)) := by
  induction l1 with
  | nil => simp [List.lookup]
  | cons x xs ih =>
    obtain ⟨k, v⟩ := x
    simp only [List.cons_append, List.lookup]
    cases hak : (a == k) <;> simp [hak, ih]

lemma procBlock_ok {n : ChaiNode} {i : Nat} {bmap : List (String × Nat)} {bd : BlockDef}
    {n' : ChaiNode} {bmap' : List (String × Nat)} {id : Nat}
    (h : procBlock n i bmap bd = .ok (n', bmap', id)) :
    n' = blockWire n id bd ∧ id = bd.id.getD i ∧
      (∀ nm, ((bmap.lookup nm).isSome = true) → ((bmap'.lookup nm).isSome = true)) ∧
      (∀ nm, bd.name = some nm → (bmap'.lookup nm).isSome = true) := by
  unfold procBlock at h
  split at h
  · rename_i hnm
    simp only [Except.ok.injEq, Prod.mk.injEq] at h
    obtain ⟨h1, h2, h3⟩ := h
    subst h3
    exact ⟨h1.symm, rfl, fun nm hs => h2 ▸ hs, fun nm hh => by rw [hnm] at hh; cases hh⟩
  · rename_i nm hnm
    split_ifs at h with hs
    simp only [Except.ok.injEq, Prod.mk.injEq] at h
    obtain ⟨h1, h2, h3⟩ := h
    subst h3
    refine ⟨h1.symm, rfl, fun nm' hs' => ?_, fun nm' hh => ?_⟩
    · rw [← h2, lookup_append_isSome, hs']
      rfl
    · rw [hnm] at hh
      injection hh with hh
      subst hh
      rw [← h2, lookup_append_isSome]
      simp [List.lookup]

lemma procBlock_dup {n : ChaiNode} {i : Nat} {bmap : List (String × Nat)} {bd : BlockDef}
    {nm : String} (hnm : bd.name = some nm) (hs : (bmap.lookup nm).isSome = true) :
    ∃ e, procBlock n i bmap bd = .error e := by
  unfold procBlock
  rw [hnm]
  simp [hs]

lemma procBlocks_mono :
    ∀ (l : List BlockDef) (n : ChaiNode) (i : Nat) (bmap : List (String × Nat)) (bids : List Nat)
      {n' : ChaiNode} {bmap' : List (String × Nat)} {bids' : List Nat},
      procBlocks n i bmap bids l = .ok (n', bmap', bids') →
      (∃ s, n'.blocks = n.blocks ++ s) ∧ (∃ s, n'.inputToBlock = n.inputToBlock ++ s) ∧
      (∃ s, n'.outputFromBlock = n.outputFromBlock ++ s) ∧
      (∃ s, n'.triggerToBlock = n.triggerToBlock ++ s) ∧
      n'.internalDeps = n.internalDeps ∧ (∃ s, bids' = bids ++ s) ∧
      (∀ nm, ((bmap.lookup nm).isSome = true) → ((bmap'.lookup nm).isSome = true)) := by
  intro l
  induction l with
  | nil =>
    intro n i bmap bids n' bmap' bids' h
    simp only [procBlocks, Except.ok.injEq, Prod.mk.injEq] at h
    obtain ⟨h1, h2, h3⟩ := h
    subst h1; subst h2; subst h3
    exact ⟨⟨[], by simp⟩, ⟨[], by simp⟩, ⟨[], by simp⟩, ⟨[], by simp⟩, rfl, ⟨[], by simp⟩,
      fun nm hs => hs⟩
  | cons bd rest ih =>
    intro n i bmap bids n' bmap' bids' h
    simp only [procBlocks] at h
    split at h
    · exact Except.noConfusion h
    · rename_i n1 bmap1 bid heq
      obtain ⟨hw, hid, hmono, hadd⟩ := procBlock_ok heq
      obtain ⟨⟨s1, e1⟩, ⟨s2, e2⟩, ⟨s3, e3⟩, ⟨s4, e4⟩, e5, ⟨s6, e6⟩, e7⟩ := ih _ _ _ _ h
      rw [hw] at e1 e2 e3 e4 e5
      refine ⟨⟨(bid, bd.sampling.getD 0) :: s1, by rw [e1]; simp [blockWire]⟩,
        ⟨optInputs bd bid ++ s2, by rw [e2]; simp [blockWire]⟩,
        ⟨optOutputs bd bid ++ s3, by rw [e3]; simp [blockWire]⟩,
        ⟨optTriggers bd bid ++ s4, by rw [e4]; simp [blockWire]⟩,
        by rw [e5]; simp [blockWire],
        ⟨bid :: s6, by rw [e6]; simp⟩, fun nm hs => e7 nm (hmono nm hs)⟩

lemma procBlocks_at :
    ∀ (l : List BlockDef) (n : ChaiNode) (i : Nat) (bmap : List (String × Nat)) (bids : List Nat)
      {n' : ChaiNode} {bmap' : List (String × Nat)} {bids' : List Nat} (j : Nat) (bd : BlockDef),
      procBlocks n i bmap bids l = .ok (n', bmap', bids') →
      l[j]? = some bd →
      n'.blocks[n.blocks.length + j]? = some (bd.id.getD (i + j), bd.sampling.getD 0) ∧
      bids'[bids.length + j]? = some (bd.id.getD (i + j)) ∧
      (∀ x ∈ optInputs bd (bd.id.getD (i + j)), x ∈ n'.inputToBlock) ∧
      (∀ x ∈ optOutputs bd (bd.id.getD (i + j)), x ∈ n'.outputFromBlock) ∧
      (∀ x ∈ optTriggers bd (bd.id.getD (i + j)), x ∈ n'.triggerToBlock) := by
  intro l
  induction l with
  | nil => intro n i bmap bids n' bmap' bids' j bd h hj; simp at hj
  | cons bd0 rest ih =>
    intro n i bmap bids n' bmap' bids' j bd h hj
    simp only [procBlocks] at h
    split at h
    · exact Except.noConfusion h
    · rename_i n1 bmap1 bid heq
      obtain ⟨hw, hid, hmono, hadd⟩ := procBlock_ok heq
      cases j with
      | zero =>
        simp only [List.getElem?_cons_zero, Option.some.injEq] at hj
        subst hj
        obtain ⟨⟨s1, e1⟩, ⟨s2, e2⟩, ⟨s3, e3⟩, ⟨s4, e4⟩, _, ⟨s6, e6⟩, _⟩ :=
          procBlocks_mono _ _ _ _ _ h
        rw [hw] at e1 e2 e3 e4
        simp only [Nat.add_zero]
        rw [← hid]
        refine ⟨?_, ?_, ?_, ?_, ?_⟩
        · rw [e1]
          simp only [blockWire, List.append_assoc]
          rw [List.getElem?_append_right (Nat.le_refl _)]
          simp
        · rw [e6]
          simp only [List.append_assoc]
          rw [List.getElem?_append_right (Nat.le_refl _)]
          simp
        · intro x hx
          rw [e2]
          simp only [blockWire, List.append_assoc]
          exact List.mem_append_right _ (List.mem_append_left _ hx)
        · intro x hx
          rw [e3]
          simp only [blockWire, List.append_assoc]
          exact List.mem_append_right _ (List.mem_append_left _ hx)
        · intro x hx
          rw [e4]
          simp only [blockWire, List.append_assoc]
          exact List.mem_append_right _ (List.mem_append_left _ hx)
      | succ k =>
        simp only [List.getElem?_cons_succ] at hj
        have hres := ih n1 (i + 1) bmap1 (bids ++ [bid]) k bd h hj
        rw [hw] at hres
        have hb : (blockWire n bid bd0).blocks.length = n.blocks.length + 1 := by
          simp [blockWire]
        have hbd : (bids ++ [bid]).length = bids.length + 1 := by simp
        rw [hb, hbd] at hres
        have harith : i + 1 + k = i + (k + 1) := by omega
        have harith2 : n.blocks.length + 1 + k = n.blocks.length + (k + 1) := by omega
        have harith3 : bids.length + 1 + k = bids.length + (k + 1) := by omega
        rw [harith, harith2, harith3] at hres
        exact hres

end SMNChai

namespace SMNChai

lemma procBlocks_name_seen :
    ∀ (l : List BlockDef) (n : ChaiNode) (i : Nat) (bmap : List (String × Nat)) (bids : List Nat)
      (b : Nat) (bdb : BlockDef) (nm : String),
      ((bmap.lookup nm).isSome = true) → l[b]? = some bdb → bdb.name = some nm →
      ∃ e, procBlocks n i bmap bids l = .error e := by
  intro l
  induction l with
  | nil => intro n i bmap bids b bdb nm hs hb hnm; simp at hb
  | cons bd0 rest ih =>
    intro n i bmap bids b bdb nm hs hb hnm
    cases hpb : procBlock n i bmap bd0 with
    | error e => exact ⟨e, by simp only [procBlocks, hpb]⟩
    | ok trip =>
      obtain ⟨n1, bmap1, bid⟩ := trip
      cases b with
      | zero =>
        simp only [List.getElem?_cons_zero, Option.some.injEq] at hb
        subst hb
        obtain ⟨e, he⟩ := procBlock_dup hnm hs
        rw [hpb] at he
        cases he
      | succ k =>
        simp only [List.getElem?_cons_succ] at hb
        obtain ⟨hw, hid, hmono, hadd⟩ := procBlock_ok hpb
        obtain ⟨e, he⟩ := ih n1 (i + 1) bmap1 (bids ++ [bid]) k bdb nm (hmono nm hs) hb hnm
        exact ⟨e, by simp only [procBlocks, hpb, he]⟩

lemma procBlocks_dup_name :
    ∀ (l : List BlockDef) (n : ChaiNode) (i : Nat) (bmap : List (String × Nat)) (bids : List Nat)
      (a b : Nat) (bda bdb : BlockDef) (nm : String),
      a < b → l[a]? = some bda → l[b]? = some bdb →
      bda.name = some nm → bdb.name = some nm →
      ∃ e, procBlocks n i bmap bids l = .error e := by
  intro l
  induction l with
  | nil => intro n i bmap bids a b bda bdb nm hab ha hb hna hnb; simp at ha
  | cons bd0 rest ih =>
    intro n i bmap bids a b bda bdb nm hab ha hb hna hnb
    cases hpb : procBlock n i bmap bd0 with
    | error e => exact ⟨e, by simp only [procBlocks, hpb]⟩
    | ok trip =>
      obtain ⟨n1, bmap1, bid⟩ := trip
      obtain ⟨hw, hid, hmono, hadd⟩ := procBlock_ok hpb
      cases a with
      | zero =>
        simp only [List.getElem?_cons_zero, Option.some.injEq] at ha
        subst ha
        obtain ⟨k, rfl⟩ : ∃ k, b = k + 1 := ⟨b - 1, by omega⟩
        simp only [List.getElem?_cons_succ] at hb
        obtain ⟨e, he⟩ :=
          procBlocks_name_seen rest n1 (i + 1) bmap1 (bids ++ [bid]) k bdb nm
            (hadd nm hna) hb hnb
        exact ⟨e, by simp only [procBlocks, hpb, he]⟩
      | succ j =>
        obtain ⟨k, rfl⟩ : ∃ k, b = k + 1 := ⟨b - 1, by omega⟩
        simp only [List.getElem?_cons_succ] at ha hb
        obtain ⟨e, he⟩ := ih n1 (i + 1) bmap1 (bids ++ [bid]) j k bda bdb nm
          (by omega) ha hb hna hnb
        exact ⟨e, by simp only [procBlocks, hpb, he]⟩

lemma addDeps1_spec :
    ∀ (ds : List DepRef) (n : ChaiNode) (dst : Nat) (bmap : List (String × Nat)) {n' : ChaiNode},
      addDeps1 n dst bmap ds = .ok n' →
      n'.blocks = n.blocks ∧ n'.inputToBlock = n.inputToBlock ∧
      n'.outputFromBlock = n.outputFromBlock ∧ n'.triggerToBlock = n.triggerToBlock ∧
      (∀ x ∈ n.internalDeps, x ∈ n'.internalDeps) ∧
      (∀ d ∈ ds, ∃ src, (src, dst) ∈ n'.internalDeps ∧ ∀ k, d = .byId k → src = k) := by
  intro ds
  induction ds with
  | nil =>
    intro n dst bmap n' h
    simp only [addDeps1, Except.ok.injEq] at h
    subst h
    exact ⟨rfl, rfl, rfl, rfl, fun x hx => hx, fun d hd => absurd hd (List.not_mem_nil d)⟩
  | cons d0 rest ih =>
    intro n dst bmap n' h
    simp only [addDeps1] at h
    split at h
    · exact Except.noConfusion h
    · rename_i src heq
      obtain ⟨e1, e2, e3, e4, e5, e6⟩ := ih _ dst bmap h
      refine ⟨by rw [e1], by rw [e2], by rw [e3], by rw [e4],
        fun x hx => e5 x (List.mem_append_left _ hx), fun d hd => ?_⟩
      rcases List.mem_cons.mp hd with rfl | hd'
      · refine ⟨src, e5 (src, dst) (List.mem_append_right _ (by simp)), fun k hk => ?_⟩
        subst hk
        simp only [resolveDep, Except.ok.injEq] at heq
        exact heq.symm
      · exact e6 d hd'

lemma addDeps_fields :
    ∀ (l : List BlockDef) (n : ChaiNode) (bmap : List (String × Nat)) (bids : List Nat)
      (i : Nat) {n' : ChaiNode},
      addDeps n bmap bids i l = .ok n' →
      n'.blocks = n.blocks ∧ n'.inputToBlock = n.inputToBlock ∧
      n'.outputFromBlock = n.outputFromBlock ∧ n'.triggerToBlock = n.triggerToBlock ∧
      (∀ x ∈ n.internalDeps, x ∈ n'.internalDeps) := by
  intro l
  induction l with
  | nil =>
    intro n bmap bids i n' h
    simp only [addDeps, Except.ok.injEq] at h
    subst h
    exact ⟨rfl, rfl, rfl, rfl, fun x hx => hx⟩
  | cons bd0 rest ih =>
    intro n bmap bids i n' h
    simp only [addDeps] at h
    split at h
    · exact ih n bmap bids (i + 1) h
    · rename_i ds hds
      split at h
      · exact Except.noConfusion h
      · rename_i n1 heq
        obtain ⟨f1, f2, f3, f4, f5, _⟩ := addDeps1_spec _ _ _ _ heq
        obtain ⟨g1, g2, g3, g4, g5⟩ := ih n1 bmap bids (i + 1) h
        exact ⟨g1.trans f1, g2.trans f2, g3.trans f3, g4.trans f4,
          fun x hx => g5 x (f5 x hx)⟩

lemma addDeps_at :
    ∀ (l : List BlockDef) (n : ChaiNode) (bmap : List (String × Nat)) (bids : List Nat)
      (i : Nat) {n' : ChaiNode} (j : Nat) (bd : BlockDef) (ds : List DepRef),
      addDeps n bmap bids i l = .ok n' → l[j]? = some bd → bd.depends = some ds →
      ∀ d ∈ ds, ∃ src, (src, bids.getD (i + j) 0) ∈ n'.internalDeps ∧
        ∀ k, d = .byId k → src = k := by
  intro l
  induction l with
  | nil => intro n bmap bids i n' j bd ds h hj hds; simp at hj
  | cons bd0 rest ih =>
    intro n bmap bids i n' j bd ds h hj hds
    simp only [addDeps] at h
    cases j with
    | zero =>
      simp only [List.getElem?_cons_zero, Option.some.injEq] at hj
      subst hj
      split at h
      · rename_i hnone
        rw [hds] at hnone
        cases hnone
      · rename_i ds0 hds0
        rw [hds] at hds0
        injection hds0 with hds0
        subst hds0
        split at h
        · exact Except.noConfusion h
        · rename_i n1 heq
          intro d hd
          obtain ⟨_, _, _, _, _, hspec⟩ := addDeps1_spec _ _ _ _ heq
          obtain ⟨src, hmem, hk⟩ := hspec d hd
          obtain ⟨_, _, _, _, hmono⟩ := addDeps_fields _ _ _ _ _ h
          refine ⟨src, ?_, hk⟩
          simpa using hmono _ hmem
    | succ k =>
      simp only [List.getElem?_cons_succ] at hj
      have harith : i + (k + 1) = (i + 1) + k := by omega
      rw [harith]
      split at h
      · exact ih n bmap bids (i + 1) k bd ds h hj hds
      · rename_i ds0 hds0
        split at h
        · exact Except.noConfusion h
        · rename_i n1 heq
          exact ih n1 bmap bids (i + 1) k bd ds h hj hds

end SMNChai

namespace SMNChai

lemma node_ok_elim {d : NodeDef} {n : ChaiNode} (h : node d = .ok n) :
    ∃ nm n1 bmap bids, d.name = some nm ∧
      procBlocks (initNode d nm) 0 [] [] (chosenBlocks d) = .ok (n1, bmap, bids) ∧
      addDeps n1 bmap bids 0 (chosenBlocks d) = .ok n := by
  unfold node at h
  split at h
  · exact Except.noConfusion h
  · rename_i nm hnm
    split_ifs at h with hc hsamp
    cases hpb : procBlocks (initNode d nm) 0 [] [] (chosenBlocks d) with
    | error e =>
      rw [hpb] at h
      exact Except.noConfusion h
    | ok trip =>
      obtain ⟨n1, bmap, bids⟩ := trip
      rw [hpb] at h
      exact ⟨nm, n1, bmap, bids, hnm, hpb, h⟩

end SMNChai

open SMNChai

/-- Claim C8: node() field handling. Giving both `updates` and `blocks` throws before the node is created; an `updates`-only definition is processed exactly like a `blocks` one; a block map without a `sampling` entry throws. -/
theorem C8_node_updates_blocks :
    (∀ (d : NodeDef) (lu lb : List BlockDef), d.updates = some lu → d.blocks = some lb →
      ∃ e, node d = .error e) ∧
    (∀ (d : NodeDef) (l : List BlockDef),
      node { d with blocks := none, updates := some l } =
      node { d with blocks := some l, updates := none }) ∧
    (∀ (d : NodeDef) (bd : BlockDef), bd ∈ chosenBlocks d → bd.sampling = none →
      ∃ e, node d = .error e) := by
  refine ⟨?_, ?_, ?_⟩
  · intro d lu lb hu hb
    unfold node
    split
    · exact ⟨_, rfl⟩
    · rw [if_pos ⟨by simp [hu], by simp [hb]⟩]
      exact ⟨_, rfl⟩
  · intro d l
    obtain ⟨na, inp, outp, dp, blks, upd⟩ := d
    cases na <;> simp [node, chosenBlocks, initNode]
  · intro d bd hmem hsamp
    unfold node
    split
    · exact ⟨_, rfl⟩
    · rename_i nm hnm
      by_cases hc : d.updates.isSome = true ∧ d.blocks.isSome = true
      · rw [if_pos hc]
        exact ⟨_, rfl⟩
      · rw [if_neg hc, if_pos ?_]
        · exact ⟨_, rfl⟩
        · intro hall
          have := List.all_eq_true.mp hall bd hmem
          rw [hsamp] at this
          simp at this

theorem C8_node_updates_blocks_witness :
    ∃ e, node { name := some "x", blocks := some [], updates := some [] } = .error e :=
  C8_node_updates_blocks.1 _ [] [] rfl rfl

/-- Claim C9: default block ids. A block map without an `id` field receives the loop position index as its id, which is used for the block registration and all input/output/trigger/internal-dependency wiring; duplicate block names throw. -/
theorem C9_node_default_ids :
    (∀ (d : NodeDef) (n : ChaiNode) (i : Nat) (bd : BlockDef),
      node d = .ok n → (chosenBlocks d)[i]? = some bd → bd.id = none →
      n.blocks[i]? = some (i, bd.sampling.getD 0) ∧
      (∀ x ∈ optInputs bd i, x ∈ n.inputToBlock) ∧
      (∀ x ∈ optOutputs bd i, x ∈ n.outputFromBlock) ∧
      (∀ x ∈ optTriggers bd i, x ∈ n.triggerToBlock) ∧
      (∀ ds, bd.depends = some ds → ∀ dref ∈ ds,
        ∃ src, (src, i) ∈ n.internalDeps ∧ ∀ k, dref = .byId k → src = k)) ∧
    (∀ (d : NodeDef) (a b : Nat) (bda bdb : BlockDef) (nm : String),
      a < b → (chosenBlocks d)[a]? = some bda → (chosenBlocks d)[b]? = some bdb →
      bda.name = some nm → bdb.name = some nm → ∃ e, node d = .error e) := by
  constructor
  · intro d n i bd hok hbd hid
    obtain ⟨nm, n1, bmap, bids, hnm, hpb, had⟩ := node_ok_elim hok
    have hat := procBlocks_at (chosenBlocks d) (initNode d nm) 0 [] [] i bd hpb hbd
    rw [hid] at hat
    have hlen : (initNode d nm).blocks.length = 0 := rfl
    rw [hlen] at hat
    simp only [Option.getD_none, Nat.zero_add, List.length_nil] at hat
    obtain ⟨hblk, hbid, hin, hout, htr⟩ := hat
    obtain ⟨f1, f2, f3, f4, f5⟩ := addDeps_fields (chosenBlocks d) n1 bmap bids 0 had
    refine ⟨by rw [f1]; exact hblk, by rw [f2]; exact hin, by rw [f3]; exact hout,
      by rw [f4]; exact htr, ?_⟩
    intro ds hds dref hdref
    have hgd : bids.getD i 0 = i := by
      simp [List.getD, hbid]
    have := addDeps_at (chosenBlocks d) n1 bmap bids 0 i bd ds had hbd hds dref hdref
    rw [Nat.zero_add, hgd] at this
    exact this
  · intro d a b bda bdb nm hab ha hb hna hnb
    unfold node
    split
    · exact ⟨_, rfl⟩
    · rename_i nm' hnm
      by_cases hc : d.updates.isSome = true ∧ d.blocks.isSome = true
      · rw [if_pos hc]
        exact ⟨_, rfl⟩
      · rw [if_neg hc]
        by_cases hall : ¬ ((chosenBlocks d).all fun bd => bd.sampling.isSome) = true
        · rw [if_pos hall]
          exact ⟨_, rfl⟩
        · rw [if_neg hall]
          obtain ⟨e, he⟩ := procBlocks_dup_name (chosenBlocks d) (initNode d nm') 0 [] []
            a b bda bdb nm hab ha hb hna hnb
          rw [he]
          exact ⟨e, rfl⟩

theorem C9_node_default_ids_witness :
    c9n.blocks[0]? = some (0, c9bd.sampling.getD 0) ∧
    (∀ x ∈ optInputs c9bd 0, x ∈ c9n.inputToBlock) ∧
    (∀ x ∈ optOutputs c9bd 0, x ∈ c9n.outputFromBlock) ∧
    (∀ x ∈ optTriggers c9bd 0, x ∈ c9n.triggerToBlock) ∧
    (∀ ds, c9bd.depends = some ds → ∀ dref ∈ ds,
      ∃ src, (src, 0) ∈ c9n.internalDeps ∧ ∀ k, dref = .byId k → src = k) :=
  C9_node_default_ids.1 c9d c9n 0 c9bd (by rfl) (by rfl) rfl

/-- Claim C10: the VPort invariant. A virtual port is connected to at most one source; each of the three VPort methods preserves the invariant and returns an error, mutating nothing, on any call that would violate it. -/
theorem C10_vport_invariant :
    (∀ v p v' c, VPinv v → virtual_add_input v p = .ok (v', c) → VPinv v') ∧
    (∀ v p v' c, VPinv v → virtual_add_output v p = .ok (v', c) → VPinv v') ∧
    (∀ v p v' c, VPinv v → virtual_assign v p = .ok (v', c) → VPinv v') ∧
    (∀ v p, v.m_type = 1 → ∃ e, virtual_add_input v p = .error e) ∧
    (∀ v p, v.m_type = 0 → v.m_ins ≠ [] → ∃ e, virtual_add_input v p = .error e) ∧
    (∀ v p, v.m_type = 0 → ∃ e, virtual_add_output v p = .error e) ∧
    (∀ v p, v.m_type = 1 → v.m_realports ≠ [] → ∃ e, virtual_assign v p = .error e) := by
  refine ⟨?_, ?_, ?_, ?_, ?_, ?_, ?_⟩
  · intro v p v' c hv h
    unfold virtual_add_input at h
    split_ifs at h with h1 h2 h3
    push_neg at h2
    simp only [Except.ok.injEq, Prod.mk.injEq] at h
    obtain ⟨rfl, rfl⟩ := h
    exact ⟨fun ht => by simp [h2 ht], fun ht => absurd ht h1⟩
  · intro v p v' c hv h
    unfold virtual_add_output at h
    split_ifs at h with h1 h2
    simp only [Except.ok.injEq, Prod.mk.injEq] at h
    obtain ⟨rfl, rfl⟩ := h
    exact ⟨fun ht => hv.1 ht, fun ht => hv.2 ht⟩
  · intro v p v' c hv h
    unfold virtual_assign at h
    split_ifs at h with h1 h2 h3
    · simp only [Except.ok.injEq, Prod.mk.injEq] at h
      obtain ⟨rfl, rfl⟩ := h
      push_neg at h3
      refine ⟨fun ht => ?_, fun ht => ?_⟩
      · rw [h2] at ht; exact absurd ht (by simp)
      · simp [h3]
    · simp only [Except.ok.injEq, Prod.mk.injEq] at h
      obtain ⟨rfl, rfl⟩ := h
      exact ⟨fun ht => hv.1 ht, fun ht => absurd ht h2⟩
    · simp only [Except.ok.injEq, Prod.mk.injEq] at h
      obtain ⟨rfl, rfl⟩ := h
      exact ⟨fun ht => hv.1 ht, fun ht => absurd ht h2⟩
  · intro v p h1
    exact ⟨"A virtual output port cannot have an input.",
      by unfold virtual_add_input; simp [h1]⟩
  · intro v p h0 hne
    exact ⟨"A virtual input port cannot have multiple inputs.",
      by unfold virtual_add_input; simp [h0, hne]⟩
  · intro v p h0
    exact ⟨"A virtual input port cannot have an output.",
      by unfold virtual_add_output; simp [h0]⟩
  · intro v p h1 hne
    by_cases hp : v.m_type ≠ port_type p ∧ port_type p ≠ 2
    · exact ⟨"Types of virtual port and actual port are incompatible.",
        by unfold virtual_assign; rw [if_pos hp]⟩
    · exact ⟨"A virtual output port cannot be assigned to multiple ports.",
        by unfold virtual_assign; rw [if_neg hp, if_pos h1, if_pos hne]⟩

theorem C10_vport_invariant_witness :
    VPinv { m_type := 0, m_ins := [⟨"a", "y", 1⟩], m_outs := [], m_realports := [] } :=
  C10_vport_invariant.1 ⟨0, [], [], []⟩ ⟨"a", "y", 1⟩ _ [] (by decide) (by rfl)

namespace OBN

lemma minT_le_init : ∀ (l : List Nat) (m : Nat), minT l m ≤ m := by
  intro l
  induction l with
  | nil => intro m; exact Nat.le_refl m
  | cons x xs ih =>
    intro m
    exact Nat.le_trans (ih (min m x)) (Nat.min_le_left m x)

lemma minT_le_mem : ∀ (l : List Nat) (m : Nat) (x : Nat), x ∈ l → minT l m ≤ x := by
  intro l
  induction l with
  | nil => intro m x hx; cases hx
  | cons y ys ih =>
    intro m x hx
    rcases List.mem_cons.mp hx with rfl | hx'
    · exact Nat.le_trans (minT_le_init ys (min m x)) (Nat.min_le_right m x)
    · exact ih (min m y) x hx'

lemma minTime_le {q : List QEntry} {e : QEntry} (he : e ∈ q) : minTime q ≤ e.fire_time := by
  cases q with
  | nil => cases he
  | cons e0 es =>
    rcases List.mem_cons.mp he with rfl | he'
    · exact minT_le_init _ _
    · exact minT_le_mem _ _ _ (List.mem_map_of_mem _ he')

lemma procAcks_events (mkAck : Nat → Event) :
    ∀ (arr : List Nat) (pending : Finset Nat) (e : Event),
      e ∈ (procAcks mkAck arr pending).2 → ∃ n, e = mkAck n := by
  intro arr
  induction arr with
  | nil => intro pending e he; cases he
  | cons a rest ih =>
    intro pending e he
    simp only [procAcks] at he
    split at he
    · rcases List.mem_cons.mp he with rfl | he'
      · exact ⟨a, rfl⟩
      · exact ih _ e he'
    · exact ih _ e he

lemma phase_events (mkSend : Bool → Nat → Event) (mkAck : Nat → Event)
    (ack1 ack2 : Nat → Bool) (sched1 sched2 : List Nat → List Nat) (ns : List Nat)
    (e : Event) (he : e ∈ (phase mkSend mkAck ack1 ack2 sched1 sched2 ns).1) :
    (∃ rs n, e = mkSend rs n) ∨ (∃ n, e = mkAck n) := by
  simp only [phase] at he
  split at he <;>
    simp only [List.mem_append] at he
  · rcases he with h | h
    · obtain ⟨n, _, rfl⟩ := List.mem_map.mp h
      exact .inl ⟨false, n, rfl⟩
    · exact .inr (procAcks_events _ _ _ _ h)
  · rcases he with ((h | h) | h) | h
    · obtain ⟨n, _, rfl⟩ := List.mem_map.mp h
      exact .inl ⟨false, n, rfl⟩
    · exact .inr (procAcks_events _ _ _ _ h)
    · obtain ⟨n, _, rfl⟩ := List.mem_map.mp h
      exact .inl ⟨true, n, rfl⟩
    · exact .inr (procAcks_events _ _ _ _ h)

lemma runWaves_events (cfg : SystemConfig) (beh : NodeBehavior) (sched : AckSchedule) (t : Nat) :
    ∀ (ws : List (Finset Blk)) (wi : Nat) (e : Event),
      e ∈ (runWaves cfg beh sched t wi ws).1 →
      (∃ n mask rs, e = .SendY t n mask rs) ∨ (∃ n mask, e = .AckY t n mask) := by
  intro ws
  induction ws with
  | nil => intro wi e he; cases he
  | cons w rest ih =>
    intro wi e he
    simp only [runWaves] at he
    split at he
    · rcases List.mem_append.mp he with h | h
      · rcases phase_events _ _ _ _ _ _ _ _ h with ⟨rs, n, rfl⟩ | ⟨n, rfl⟩
        · exact .inl ⟨n, _, rs, rfl⟩
        · exact .inr ⟨n, _, rfl⟩
      · exact ih _ e h
    · rcases phase_events _ _ _ _ _ _ _ _ he with ⟨rs, n, rfl⟩ | ⟨n, rfl⟩
      · exact .inl ⟨n, _, rs, rfl⟩
      · exact .inr ⟨n, _, rfl⟩

end OBN

namespace OBN

lemma minT_eq_or : ∀ (l : List Nat) (m : Nat), minT l m = m ∨ minT l m ∈ l := by
  intro l
  induction l with
  | nil => intro m; exact .inl rfl
  | cons x xs ih =>
    intro m
    rcases ih (min m x) with h | h
    · by_cases hmx : m ≤ x
      · exact .inl (by rw [minT, h]; exact Nat.min_eq_left hmx)
      · refine .inr ?_
        rw [minT, h, Nat.min_eq_right (Nat.le_of_not_le hmx)]
        exact List.mem_cons_self x xs
    · exact .inr (List.mem_cons_of_mem x (by rw [minT]; exact h))

lemma minTime_mem {q : List QEntry} (h : q ≠ []) : ∃ e ∈ q, minTime q = e.fire_time := by
  cases q with
  | nil => exact absurd rfl h
  | cons e0 es =>
    rcases minT_eq_or (es.map (fun x => x.fire_time)) e0.fire_time with h1 | h1
    · exact ⟨e0, List.mem_cons_self e0 es, h1⟩
    · obtain ⟨e, he, heq⟩ := List.mem_map.mp h1
      exact ⟨e, List.mem_cons_of_mem e0 he, heq.symm⟩

lemma mem_tickRest {q : List QEntry} {e : QEntry} (he : e ∈ tickRest q) : e ∈ q :=
  (List.mem_filter.mp he).1

lemma mem_reschedule {cfg : SystemConfig} {t : Nat} {firedL : List Blk} {e : QEntry}
    (he : e ∈ rescheduleEntries cfg t firedL) : t ≤ e.fire_time := by
  simp only [rescheduleEntries, List.mem_filterMap] at he
  obtain ⟨b, _, hf⟩ := he
  split at hf
  · cases hf
    exact Nat.le_add_right t _
  · cases hf

lemma mem_irregular {cfg : SystemConfig} {t : Nat} {evs : List (Nat × Nat × Nat)} {e : QEntry}
    (he : e ∈ irregularEntries cfg t evs) : t ≤ e.fire_time := by
  simp only [irregularEntries, List.mem_filterMap] at he
  obtain ⟨x, _, hf⟩ := he
  split at hf
  · rename_i hcond
    cases hf
    exact hcond.1
  · cases hf

lemma tick_t (cfg : SystemConfig) (beh : NodeBehavior) (sched : AckSchedule) (st : GCState) :
    (tick cfg beh sched st).1.t = minTime st.queue := by
  simp only [tick]
  split
  · rfl
  · split
    · rfl
    · split <;> rfl

lemma tick_queue_ge (cfg : SystemConfig) (beh : NodeBehavior) (sched : AckSchedule)
    (st : GCState) :
    ∀ e ∈ (tick cfg beh sched st).1.queue, minTime st.queue ≤ e.fire_time := by
  simp only [tick]
  split
  · intro e he
    exact minTime_le (mem_tickRest he)
  · split
    · intro e he
      exact minTime_le (mem_tickRest (List.mem_filter.mp he).1)
    · split
      · intro e he
        rcases List.mem_append.mp he with h1 | h1
        · rcases List.mem_append.mp h1 with h2 | h2
          · exact minTime_le (mem_tickRest h2)
          · exact mem_reschedule h2
        · exact mem_irregular h1
      · intro e he
        exact minTime_le (mem_tickRest (List.mem_filter.mp he).1)

lemma tickXPhase_events (cfg : SystemConfig) (beh : NodeBehavior) (sched : AckSchedule)
    (m : Nat) (firedL : List Blk) (e : Event)
    (he : e ∈ (tickXPhase cfg beh sched m firedL).1) :
    (∃ n mask rs, e = .SendX m n mask rs) ∨ (∃ n mask, e = .AckX m n mask) := by
  rcases phase_events _ _ _ _ _ _ _ _ he with ⟨rs, n, rfl⟩ | ⟨n, rfl⟩
  · exact .inl ⟨n, _, rs, rfl⟩
  · exact .inr ⟨n, _, rfl⟩

lemma tsOf_runWaves (cfg : SystemConfig) (beh : NodeBehavior) (sched : AckSchedule)
    (t : Nat) (wi : Nat) (ws : List (Finset Blk)) :
    (runWaves cfg beh sched t wi ws).1.filterMap tsOf = [] := by
  rw [List.filterMap_eq_nil_iff]
  intro e he
  rcases runWaves_events cfg beh sched t ws wi e he with ⟨n, mask, rs, rfl⟩ | ⟨n, mask, rfl⟩ <;> rfl

lemma tsOf_tickXPhase (cfg : SystemConfig) (beh : NodeBehavior) (sched : AckSchedule)
    (m : Nat) (firedL : List Blk) :
    (tickXPhase cfg beh sched m firedL).1.filterMap tsOf = [] := by
  rw [List.filterMap_eq_nil_iff]
  intro e he
  rcases tickXPhase_events cfg beh sched m firedL e he with ⟨n, mask, rs, rfl⟩ | ⟨n, mask, rfl⟩ <;>
    rfl

lemma tsOf_nto (l : List Nat) : (l.map (fun n => Event.NodeTimedOut n)).filterMap tsOf = [] := by
  rw [List.filterMap_eq_nil_iff]
  intro e he
  obtain ⟨n, _, rfl⟩ := List.mem_map.mp he
  rfl

lemma tick_times (cfg : SystemConfig) (beh : NodeBehavior) (sched : AckSchedule) (st : GCState) :
    tickTimes (tick cfg beh sched st).2.1 = [minTime st.queue] := by
  simp only [tick, tickTimes]
  split
  · rfl
  · split
    · simp only [List.filterMap_cons, List.filterMap_append, tsOf_runWaves, tsOf_nto]
      rfl
    · split
      · simp only [List.filterMap_cons, List.filterMap_append, tsOf_runWaves, tsOf_tickXPhase]
        rfl
      · simp only [List.filterMap_cons, List.filterMap_append, tsOf_runWaves, tsOf_tickXPhase,
          tsOf_nto]
        rfl

lemma run_times_chain (cfg : SystemConfig) (beh : NodeBehavior) (sched : AckSchedule) :
    ∀ (fuel : Nat) (st : GCState), QInv st →
      List.Chain' (· ≤ ·) (st.t :: tickTimes (run cfg beh sched fuel st)) := by
  intro fuel
  induction fuel with
  | zero => intro st _; simp [run, tickTimes]
  | succ fuel ih =>
    intro st hq
    simp only [run]
    split
    · simp [tickTimes, tsOf]
    · rename_i hne
      have hstm : st.t ≤ minTime st.queue := by
        obtain ⟨e, he, heq⟩ := minTime_mem (by simpa using hne)
        rw [heq]
        exact hq e he
      split
      · rw [tickTimes, List.filterMap_append]
        have h1 := tick_times cfg beh sched st
        rw [tickTimes] at h1
        rw [h1]
        simp [List.chain'_cons, hstm, tsOf]
      · split
        · rw [tickTimes, List.filterMap_append]
          have h1 := tick_times cfg beh sched st
          rw [tickTimes] at h1
          rw [h1]
          simp [List.chain'_cons, hstm, tsOf]
        · rw [tickTimes, List.filterMap_append]
          have h1 := tick_times cfg beh sched st
          rw [tickTimes] at h1
          rw [h1]
          have hIH := ih (tick cfg beh sched st).1 (by
            intro e he
            rw [tick_t]
            exact tick_queue_ge cfg beh sched st e he)
          rw [tick_t] at hIH
          rw [tickTimes] at hIH
          exact List.Chain'.cons hstm hIH

end OBN

namespace OBN

lemma procAcks_mem_of (mkAck : Nat → Event) :
    ∀ (arr : List Nat) (pending : Finset Nat) (e : Event),
      e ∈ (procAcks mkAck arr pending).2 → ∃ n ∈ pending, e = mkAck n := by
  intro arr
  induction arr with
  | nil => intro pending e he; cases he
  | cons a rest ih =>
    intro pending e he
    simp only [procAcks] at he
    split at he
    · rename_i ha
      rcases List.mem_cons.mp he with rfl | he'
      · exact ⟨a, ha, rfl⟩
      · obtain ⟨n, hn, rfl⟩ := ih _ e he'
        exact ⟨n, Finset.mem_of_mem_erase hn, rfl⟩
    · exact ih _ e he

lemma procAcks_pending_sub (mkAck : Nat → Event) :
    ∀ (arr : List Nat) (pending : Finset Nat) (x : Nat),
      x ∈ (procAcks mkAck arr pending).1 → x ∈ pending := by
  intro arr
  induction arr with
  | nil => intro pending x hx; exact hx
  | cons a rest ih =>
    intro pending x hx
    simp only [procAcks] at hx
    split at hx
    · exact Finset.mem_of_mem_erase (ih _ x hx)
    · exact ih _ x hx

lemma procAcks_acked (mkAck : Nat → Event) :
    ∀ (arr : List Nat) (pending : Finset Nat) (x : Nat),
      x ∈ pending → x ∉ (procAcks mkAck arr pending).1 →
      mkAck x ∈ (procAcks mkAck arr pending).2 := by
  intro arr
  induction arr with
  | nil => intro pending x hx hnx; exact absurd hx hnx
  | cons a rest ih =>
    intro pending x hx hnx
    by_cases ha : a ∈ pending
    · simp only [procAcks, if_pos ha] at hnx ⊢
      by_cases hxa : x = a
      · subst hxa
        exact List.mem_cons_self _ _
      · exact List.mem_cons_of_mem _ (ih _ x (Finset.mem_erase.mpr ⟨hxa, hx⟩) hnx)
    · simp only [procAcks, if_neg ha] at hnx ⊢
      exact ih _ x hx hnx

lemma phase_events_strong (mkSend : Bool → Nat → Event) (mkAck : Nat → Event)
    (ack1 ack2 : Nat → Bool) (sched1 sched2 : List Nat → List Nat) (ns : List Nat)
    (e : Event) (he : e ∈ (phase mkSend mkAck ack1 ack2 sched1 sched2 ns).1) :
    (∃ rs n, n ∈ ns ∧ e = mkSend rs n) ∨ (∃ n, n ∈ ns ∧ e = mkAck n) := by
  simp only [phase] at he
  split at he <;> simp only [List.mem_append] at he
  · rcases he with h | h
    · obtain ⟨n, hn, rfl⟩ := List.mem_map.mp h
      exact .inl ⟨false, n, hn, rfl⟩
    · obtain ⟨n, hn, rfl⟩ := procAcks_mem_of _ _ _ _ h
      exact .inr ⟨n, List.mem_toFinset.mp hn, rfl⟩
  · rcases he with ((h | h) | h) | h
    · obtain ⟨n, hn, rfl⟩ := List.mem_map.mp h
      exact .inl ⟨false, n, hn, rfl⟩
    · obtain ⟨n, hn, rfl⟩ := procAcks_mem_of _ _ _ _ h
      exact .inr ⟨n, List.mem_toFinset.mp hn, rfl⟩
    · obtain ⟨n, hn, rfl⟩ := List.mem_map.mp h
      exact .inl ⟨true, n, (List.mem_filter.mp hn).1, rfl⟩
    · obtain ⟨n, hn, rfl⟩ := procAcks_mem_of _ _ _ _ h
      have h2 := procAcks_pending_sub mkAck _ _ n hn
      exact .inr ⟨n, List.mem_toFinset.mp h2, rfl⟩

end OBN

namespace OBN
lemma mem_nodesOf {l : List Blk} {n : Nat} : n ∈ nodesOf l ↔ ∃ b ∈ l, b.1 = n := by
  simp [nodesOf, List.mem_dedup, List.mem_map]

lemma maskOf_ne_nil {l : List Blk} {n : Nat} : maskOf l n ≠ [] ↔ ∃ b ∈ l, b.1 = n := by
  constructor
  · intro h
    obtain ⟨y, hy⟩ := List.exists_mem_of_ne_nil _ h
    simp only [maskOf, List.mem_map, List.mem_filter] at hy
    obtain ⟨b, ⟨hb, hbn⟩, _⟩ := hy
    exact ⟨b, hb, by simpa using hbn⟩
  · intro hex hnil
    obtain ⟨b, hb, hbn⟩ := hex
    have hmem : b.2 ∈ maskOf l n := by
      simp only [maskOf, List.mem_map, List.mem_filter]
      exact ⟨b, ⟨hb, by simp [hbn]⟩, rfl⟩
    rw [hnil] at hmem
    cases hmem

lemma mem_xNodes {cfg : SystemConfig} {firedL : List Blk} {n : Nat} :
    n ∈ xNodes cfg firedL ↔
      (maskOf firedL n ≠ [] ∧ (nodeDecl cfg n).needs_state_update = true) := by
  rw [xNodes, List.mem_filter, maskOf_ne_nil, ← mem_nodesOf]

lemma tickXPhase_sendX_elim {cfg : SystemConfig} {beh : NodeBehavior} {sched : AckSchedule}
    {m : Nat} {firedL : List Blk} {t : Nat} {n : Nat} {mask : List Nat} {rs : Bool}
    (h : Event.SendX t n mask rs ∈ (tickXPhase cfg beh sched m firedL).1) :
    t = m ∧ n ∈ xNodes cfg firedL ∧ mask = maskOf firedL n := by
  rcases phase_events_strong _ _ _ _ _ _ _ _ h with ⟨rs', n', hn', heq⟩ | ⟨n', _, heq⟩
  · injection heq with h1 h2 h3 h4
    subst h1
    subst h2
    subst h3
    exact ⟨rfl, hn', rfl⟩
  · exact Event.noConfusion heq

lemma notX_runWaves {cfg : SystemConfig} {beh : NodeBehavior} {sched : AckSchedule}
    {t tm : Nat} {wi : Nat} {ws : List (Finset Blk)} {n : Nat} {mask : List Nat} {rs : Bool}
    (h : Event.SendX t n mask rs ∈ (runWaves cfg beh sched tm wi ws).1) : False := by
  rcases runWaves_events _ _ _ _ _ _ _ h with ⟨_, _, _, heq⟩ | ⟨_, _, heq⟩ <;>
    exact Event.noConfusion heq

lemma tick_sendX_elim {cfg : SystemConfig} {beh : NodeBehavior} {sched : AckSchedule}
    {st : GCState} {t : Nat} {n : Nat} {mask : List Nat} {rs : Bool}
    (h : Event.SendX t n mask rs ∈ (tick cfg beh sched st).2.1) :
    t = minTime st.queue ∧ n ∈ xNodes cfg (blockList cfg (tickFired cfg st.queue)) ∧
      mask = maskOf (blockList cfg (tickFired cfg st.queue)) n := by
  simp only [tick] at h
  split at h
  · simp at h
  · split at h
    · rcases List.mem_cons.mp h with heq | h'
      · exact Event.noConfusion heq
      · rcases List.mem_append.mp h' with h2 | h2
        · rcases List.mem_append.mp h2 with h3 | h3
          · exact (notX_runWaves h3).elim
          · obtain ⟨_, _, heq⟩ := List.mem_map.mp h3
            exact Event.noConfusion heq
        · rcases List.mem_cons.mp h2 with heq | h3
          · exact Event.noConfusion heq
          · cases h3
    · split at h
      · rcases List.mem_cons.mp h with heq | h'
        · exact Event.noConfusion heq
        · rcases List.mem_append.mp h' with h2 | h2
          · rcases List.mem_append.mp h2 with h3 | h3
            · exact (notX_runWaves h3).elim
            · exact tickXPhase_sendX_elim h3
          · rcases List.mem_cons.mp h2 with heq | h3
            · exact Event.noConfusion heq
            · cases h3
      · rcases List.mem_cons.mp h with heq | h'
        · exact Event.noConfusion heq
        · rcases List.mem_append.mp h' with h2 | h2
          · rcases List.mem_append.mp h2 with h3 | h3
            · rcases List.mem_append.mp h3 with h4 | h4
              · exact (notX_runWaves h4).elim
              · exact tickXPhase_sendX_elim h4
            · obtain ⟨_, _, heq⟩ := List.mem_map.mp h3
              exact Event.noConfusion heq
          · rcases List.mem_cons.mp h2 with heq | h3
            · exact Event.noConfusion heq
            · cases h3

end OBN

namespace OBN

lemma phase_fst_pos (mkSend : Bool → Nat → Event) (mkAck : Nat → Event)
    (ack1 ack2 : Nat → Bool) (sched1 sched2 : List Nat → List Nat) (ns : List Nat)
    (h : (procAcks mkAck (sched1 (List.filter ack1 ns)) ns.toFinset).1 = ∅) :
    (phase mkSend mkAck ack1 ack2 sched1 sched2 ns).1 =
      List.map (mkSend false) ns ++
        (procAcks mkAck (sched1 (List.filter ack1 ns)) ns.toFinset).2 := by
  simp only [phase]
  rw [if_pos h]

lemma phase_snd_pos (mkSend : Bool → Nat → Event) (mkAck : Nat → Event)
    (ack1 ack2 : Nat → Bool) (sched1 sched2 : List Nat → List Nat) (ns : List Nat)
    (h : (procAcks mkAck (sched1 (List.filter ack1 ns)) ns.toFinset).1 = ∅) :
    (phase mkSend mkAck ack1 ack2 sched1 sched2 ns).2 = ∅ := by
  simp only [phase]
  rw [if_pos h]

lemma phase_fst_neg (mkSend : Bool → Nat → Event) (mkAck : Nat → Event)
    (ack1 ack2 : Nat → Bool) (sched1 sched2 : List Nat → List Nat) (ns : List Nat)
    (h : ¬ (procAcks mkAck (sched1 (List.filter ack1 ns)) ns.toFinset).1 = ∅) :
    (phase mkSend mkAck ack1 ack2 sched1 sched2 ns).1 =
      List.map (mkSend false) ns ++
        (procAcks mkAck (sched1 (List.filter ack1 ns)) ns.toFinset).2 ++
        List.map (mkSend true)
          (List.filter (fun n => n ∈ (procAcks mkAck (sched1 (List.filter ack1 ns)) ns.toFinset).1) ns) ++
        (procAcks mkAck
          (sched2 (List.filter ack2
            (List.filter (fun n => n ∈ (procAcks mkAck (sched1 (List.filter ack1 ns)) ns.toFinset).1) ns)))
          (procAcks mkAck (sched1 (List.filter ack1 ns)) ns.toFinset).1).2 := by
  simp only [phase]
  rw [if_neg h]

lemma phase_snd_neg (mkSend : Bool → Nat → Event) (mkAck : Nat → Event)
    (ack1 ack2 : Nat → Bool) (sched1 sched2 : List Nat → List Nat) (ns : List Nat)
    (h : ¬ (procAcks mkAck (sched1 (List.filter ack1 ns)) ns.toFinset).1 = ∅) :
    (phase mkSend mkAck ack1 ack2 sched1 sched2 ns).2 =
      (procAcks mkAck
        (sched2 (List.filter ack2
          (List.filter (fun n => n ∈ (procAcks mkAck (sched1 (List.filter ack1 ns)) ns.toFinset).1) ns)))
        (procAcks mkAck (sched1 (List.filter ack1 ns)) ns.toFinset).1).1 := by
  simp only [phase]
  rw [if_neg h]

lemma phase_sends_mem (mkSend : Bool → Nat → Event) (mkAck : Nat → Event)
    (ack1 ack2 : Nat → Bool) (sched1 sched2 : List Nat → List Nat) (ns : List Nat)
    (n : Nat) (hn : n ∈ ns) :
    mkSend false n ∈ (phase mkSend mkAck ack1 ack2 sched1 sched2 ns).1 := by
  by_cases hp1 : (procAcks mkAck (sched1 (List.filter ack1 ns)) ns.toFinset).1 = ∅
  · rw [phase_fst_pos mkSend mkAck ack1 ack2 sched1 sched2 ns hp1]
    exact List.mem_append_left _ (List.mem_map_of_mem _ hn)
  · rw [phase_fst_neg mkSend mkAck ack1 ack2 sched1 sched2 ns hp1]
    exact List.mem_append_left _ (List.mem_append_left _
      (List.mem_append_left _ (List.mem_map_of_mem _ hn)))

lemma phase_success_acked (mkSend : Bool → Nat → Event) (mkAck : Nat → Event)
    (ack1 ack2 : Nat → Bool) (sched1 sched2 : List Nat → List Nat) (ns : List Nat)
    (hsucc : (phase mkSend mkAck ack1 ack2 sched1 sched2 ns).2 = ∅)
    (n : Nat) (hn : n ∈ ns) :
    mkAck n ∈ (phase mkSend mkAck ack1 ack2 sched1 sched2 ns).1 := by
  by_cases hp1 : (procAcks mkAck (sched1 (List.filter ack1 ns)) ns.toFinset).1 = ∅
  · rw [phase_fst_pos mkSend mkAck ack1 ack2 sched1 sched2 ns hp1]
    exact List.mem_append_right _ (procAcks_acked mkAck _ _ n (List.mem_toFinset.mpr hn)
      (by rw [hp1]; exact Finset.not_mem_empty n))
  · rw [phase_fst_neg mkSend mkAck ack1 ack2 sched1 sched2 ns hp1]
    rw [phase_snd_neg mkSend mkAck ack1 ack2 sched1 sched2 ns hp1] at hsucc
    by_cases h1 : n ∈ (procAcks mkAck (sched1 (List.filter ack1 ns)) ns.toFinset).1
    · refine List.mem_append_right _ (procAcks_acked mkAck _ _ n h1 ?_)
      rw [hsucc]
      exact Finset.not_mem_empty n
    · exact List.mem_append_left _ (List.mem_append_left _ (List.mem_append_right _
        (procAcks_acked mkAck _ _ n (List.mem_toFinset.mpr hn) h1)))

end OBN

namespace OBN

lemma tickXPhase_sends_mem (cfg : SystemConfig) (beh : NodeBehavior) (sched : AckSchedule)
    (m : Nat) (firedL : List Blk) (n : Nat) (hn : n ∈ xNodes cfg firedL) :
    Event.SendX m n (maskOf firedL n) false ∈ (tickXPhase cfg beh sched m firedL).1 :=
  phase_sends_mem _ _ _ _ _ _ _ _ hn

lemma tick_sendX_intro {cfg : SystemConfig} {beh : NodeBehavior} {sched : AckSchedule}
    {st : GCState} {ws : List (Finset Blk)}
    (hw : waves cfg (tickFired cfg st.queue) = some ws)
    (hy : (runWaves cfg beh sched (minTime st.queue) 0 ws).2 = none)
    {n : Nat} (hn : n ∈ xNodes cfg (blockList cfg (tickFired cfg st.queue))) :
    Event.SendX (minTime st.queue) n (maskOf (blockList cfg (tickFired cfg st.queue)) n) false ∈
      (tick cfg beh sched st).2.1 := by
  simp only [tick, hw, hy]
  split
  · exact List.mem_cons_of_mem _ (List.mem_append_left _ (List.mem_append_right _
      (tickXPhase_sends_mem cfg beh sched _ _ n hn)))
  · exact List.mem_cons_of_mem _ (List.mem_append_left _ (List.mem_append_left _
      (List.mem_append_right _ (tickXPhase_sends_mem cfg beh sched _ _ n hn))))

end OBN

namespace OBN

lemma trigStep_subset (cfg : SystemConfig) (S : Finset Blk) : S ⊆ trigStep cfg S :=
  Finset.subset_union_left

lemma trigStep_sub_all (cfg : SystemConfig) (S : Finset Blk) (h : S ⊆ allBlocksF cfg) :
    trigStep cfg S ⊆ allBlocksF cfg := by
  intro b hb
  rcases Finset.mem_union.mp hb with h1 | h1
  · exact h h1
  · exact (Finset.mem_filter.mp h1).1

lemma trigClosureAux_subset (cfg : SystemConfig) :
    ∀ (k : Nat) (S : Finset Blk), S ⊆ trigClosureAux cfg k S := by
  intro k
  induction k with
  | zero => intro S; exact Finset.Subset.refl S
  | succ k ih =>
    intro S
    exact (trigStep_subset cfg S).trans (ih (trigStep cfg S))

lemma trigClosureAux_sub_all (cfg : SystemConfig) :
    ∀ (k : Nat) (S : Finset Blk), S ⊆ allBlocksF cfg →
      trigClosureAux cfg k S ⊆ allBlocksF cfg := by
  intro k
  induction k with
  | zero => intro S h; exact h
  | succ k ih => intro S h; exact ih _ (trigStep_sub_all cfg S h)

lemma trigClosureAux_tri (cfg : SystemConfig) :
    ∀ (k : Nat) (S : Finset Blk) (b : Blk), b ∈ trigClosureAux cfg k S →
      b ∈ S ∨ ∃ a ∈ trigClosureAux cfg k S, trigB cfg a b = true := by
  intro k
  induction k with
  | zero => intro S b hb; exact .inl hb
  | succ k ih =>
    intro S b hb
    rcases ih (trigStep cfg S) b hb with h1 | h1
    · rcases Finset.mem_union.mp h1 with h2 | h2
      · exact .inl h2
      · obtain ⟨ha, hb2⟩ := Finset.mem_filter.mp h2
        obtain ⟨a, haS, htrig⟩ := hb2
        exact .inr ⟨a, trigClosureAux_subset cfg k (trigStep cfg S) ((trigStep_subset cfg S) haS),
          htrig⟩
    · exact .inr h1

lemma trigClosureAux_succ_out (cfg : SystemConfig) :
    ∀ (k : Nat) (S : Finset Blk),
      trigClosureAux cfg (k + 1) S = trigStep cfg (trigClosureAux cfg k S) := by
  intro k
  induction k with
  | zero => intro S; rfl
  | succ k ih =>
    intro S
    calc trigClosureAux cfg (k + 2) S = trigClosureAux cfg (k + 1) (trigStep cfg S) := rfl
    _ = trigStep cfg (trigClosureAux cfg k (trigStep cfg S)) := ih (trigStep cfg S)
    _ = trigStep cfg (trigClosureAux cfg (k + 1) S) := rfl

lemma trigClosureAux_stable (cfg : SystemConfig) (k : Nat) (S : Finset Blk)
    (h : trigStep cfg (trigClosureAux cfg k S) = trigClosureAux cfg k S) :
    ∀ (j : Nat), trigClosureAux cfg (k + j) S = trigClosureAux cfg k S := by
  intro j
  induction j with
  | zero => rfl
  | succ j ih =>
    have : k + (j + 1) = (k + j) + 1 := rfl
    rw [this, trigClosureAux_succ_out, ih, h]

lemma trigClosureAux_card_grow (cfg : SystemConfig) (S : Finset Blk) :
    ∀ (k : Nat),
      (∀ j < k, trigStep cfg (trigClosureAux cfg j S) ≠ trigClosureAux cfg j S) →
      S.card + k ≤ (trigClosureAux cfg k S).card := by
  intro k
  induction k with
  | zero => intro _; simp [trigClosureAux]
  | succ k ih =>
    intro h
    have h1 := ih (fun j hj => h j (Nat.lt_succ_of_lt hj))
    have h2 := h k (Nat.lt_succ_self k)
    have hss : trigClosureAux cfg k S ⊂ trigStep cfg (trigClosureAux cfg k S) :=
      Finset.ssubset_iff_subset_ne.mpr ⟨trigStep_subset cfg _, fun he => h2 he.symm⟩
    have h3 := Finset.card_lt_card hss
    rw [trigClosureAux_succ_out]
    omega

lemma trigClosure_fixed (cfg : SystemConfig) (S : Finset Blk) :
    trigStep cfg (trigClosure cfg S) = trigClosure cfg S := by
  by_cases hex : ∃ k ≤ (allBlocksF cfg).card,
      trigStep cfg (trigClosureAux cfg k (S ∩ allBlocksF cfg)) =
        trigClosureAux cfg k (S ∩ allBlocksF cfg)
  · obtain ⟨k, hk, hfix⟩ := hex
    have h1 := trigClosureAux_stable cfg k (S ∩ allBlocksF cfg) hfix ((allBlocksF cfg).card + 1 - k)
    have h2 : k + ((allBlocksF cfg).card + 1 - k) = (allBlocksF cfg).card + 1 := by omega
    rw [h2] at h1
    rw [trigClosure, h1, hfix]
  · push_neg at hex
    exfalso
    have hgrow := trigClosureAux_card_grow cfg (S ∩ allBlocksF cfg) ((allBlocksF cfg).card + 1)
      (fun j hj => hex j (by omega))
    have hsub : trigClosureAux cfg ((allBlocksF cfg).card + 1) (S ∩ allBlocksF cfg) ⊆
        allBlocksF cfg :=
      trigClosureAux_sub_all cfg _ _ Finset.inter_subset_right
    have := Finset.card_le_card hsub
    omega

lemma trigClosure_subset (cfg : SystemConfig) (S : Finset Blk) :
    S ∩ allBlocksF cfg ⊆ trigClosure cfg S :=
  trigClosureAux_subset cfg _ _

lemma trigClosure_sub_all (cfg : SystemConfig) (S : Finset Blk) :
    trigClosure cfg S ⊆ allBlocksF cfg :=
  trigClosureAux_sub_all cfg _ _ Finset.inter_subset_right

lemma trigClosure_tri (cfg : SystemConfig) (S : Finset Blk) (b : Blk)
    (hb : b ∈ trigClosure cfg S) :
    b ∈ S ∩ allBlocksF cfg ∨ ∃ a ∈ trigClosure cfg S, trigB cfg a b = true :=
  trigClosureAux_tri cfg _ _ b hb

lemma trigClosure_closed (cfg : SystemConfig) (S : Finset Blk) (a b : Blk)
    (ha : a ∈ trigClosure cfg S) (htrig : trigB cfg a b = true) (hb : b ∈ allBlocksF cfg) :
    b ∈ trigClosure cfg S := by
  rw [← trigClosure_fixed cfg S]
  exact Finset.mem_union_right _ (Finset.mem_filter.mpr ⟨hb, ⟨a, ha, htrig⟩⟩)

end OBN

namespace OBN

lemma mem_allBlocksList {cfg : SystemConfig} {b : Blk} :
    b ∈ allBlocksList cfg ↔ validBlkB cfg b = true := by
  obtain ⟨n, k⟩ := b
  simp only [allBlocksList, validBlkB, List.mem_flatMap, List.mem_range, List.mem_map,
    Bool.and_eq_true, decide_eq_true_eq]
  constructor
  · rintro ⟨n', hn', k', hk', heq⟩
    cases heq
    exact ⟨hn', hk'⟩
  · rintro ⟨h1, h2⟩
    exact ⟨n, h1, k, h2, rfl⟩

lemma mem_blockList {cfg : SystemConfig} {S : Finset Blk} {b : Blk} :
    b ∈ blockList cfg S ↔ b ∈ allBlocksList cfg ∧ b ∈ S := by
  simp [blockList, List.mem_filter]

lemma blk_invalid {cfg : SystemConfig} {b : Blk} (h : ¬ validBlkB cfg b = true) :
    blk cfg b = { period := 0 } := by
  simp only [validBlkB, Bool.and_eq_true, decide_eq_true_eq] at h
  push_neg at h
  by_cases h1 : b.1 < numNodes cfg
  · have h2 := h h1
    unfold blk
    rw [List.getElem?_eq_none h2]
    rfl
  · unfold blk nodeDecl
    rw [List.getElem?_eq_none (Nat.le_of_not_lt h1)]
    rfl

lemma trigB_invalid {cfg : SystemConfig} {a b : Blk} (h : ¬ validBlkB cfg b = true) :
    trigB cfg a b = false := by
  unfold trigB
  rw [blk_invalid h]
  simp

lemma notTC_runWaves {cfg : SystemConfig} {beh : NodeBehavior} {sched : AckSchedule}
    {tm : Nat} {wi : Nat} {ws : List (Finset Blk)} {t : Nat} {f : List Blk}
    {w : List (List Blk)}
    (h : Event.TickCompleted t f w ∈ (runWaves cfg beh sched tm wi ws).1) : False := by
  rcases runWaves_events _ _ _ _ _ _ _ h with ⟨_, _, _, heq⟩ | ⟨_, _, heq⟩ <;>
    exact Event.noConfusion heq

lemma notTC_tickXPhase {cfg : SystemConfig} {beh : NodeBehavior} {sched : AckSchedule}
    {m : Nat} {firedL : List Blk} {t : Nat} {f : List Blk} {w : List (List Blk)}
    (h : Event.TickCompleted t f w ∈ (tickXPhase cfg beh sched m firedL).1) : False := by
  rcases tickXPhase_events _ _ _ _ _ _ h with ⟨_, _, _, heq⟩ | ⟨_, _, heq⟩ <;>
    exact Event.noConfusion heq

lemma tick_tickCompleted_elim {cfg : SystemConfig} {beh : NodeBehavior} {sched : AckSchedule}
    {st : GCState} {t : Nat} {fired : List Blk} {wsL : List (List Blk)}
    (h : Event.TickCompleted t fired wsL ∈ (tick cfg beh sched st).2.1) :
    t = minTime st.queue ∧ fired = blockList cfg (tickFired cfg st.queue) := by
  simp only [tick] at h
  split at h
  · simp at h
  · split at h
    · rcases List.mem_cons.mp h with heq | h'
      · exact Event.noConfusion heq
      · rcases List.mem_append.mp h' with h2 | h2
        · rcases List.mem_append.mp h2 with h3 | h3
          · exact (notTC_runWaves h3).elim
          · obtain ⟨_, _, heq⟩ := List.mem_map.mp h3
            exact Event.noConfusion heq
        · rcases List.mem_cons.mp h2 with heq | h3
          · exact Event.noConfusion heq
          · cases h3
    · split at h
      · rcases List.mem_cons.mp h with heq | h'
        · exact Event.noConfusion heq
        · rcases List.mem_append.mp h' with h2 | h2
          · rcases List.mem_append.mp h2 with h3 | h3
            · exact (notTC_runWaves h3).elim
            · exact (notTC_tickXPhase h3).elim
          · rcases List.mem_cons.mp h2 with heq | h3
            · injection heq with e1 e2 e3
              exact ⟨e1, e2⟩
            · cases h3
      · rcases List.mem_cons.mp h with heq | h'
        · exact Event.noConfusion heq
        · rcases List.mem_append.mp h' with h2 | h2
          · rcases List.mem_append.mp h2 with h3 | h3
            · rcases List.mem_append.mp h3 with h4 | h4
              · exact (notTC_runWaves h4).elim
              · exact (notTC_tickXPhase h4).elim
            · obtain ⟨_, _, heq⟩ := List.mem_map.mp h3
              exact Event.noConfusion heq
          · rcases List.mem_cons.mp h2 with heq | h3
            · exact Event.noConfusion heq
            · cases h3

lemma fired_iff_trig {cfg : SystemConfig} {q : List QEntry} {b : Blk}
    (hnoB : ∀ e ∈ q, (e.node, e.block) ≠ b) :
    b ∈ blockList cfg (tickFired cfg q) ↔
      ∃ a ∈ blockList cfg (tickFired cfg q), trigB cfg a b = true := by
  constructor
  · intro hb
    obtain ⟨hall, hF⟩ := mem_blockList.mp hb
    rcases trigClosure_tri cfg _ b hF with h1 | h1
    · exfalso
      have h2 := Finset.mem_inter.mp h1 |>.1
      obtain ⟨e, he, heq⟩ := by
        simpa [List.mem_map] using List.mem_toFinset.mp h2
      exact hnoB e he.1 heq
    · obtain ⟨a, ha, htrig⟩ := h1
      refine ⟨a, mem_blockList.mpr ⟨?_, ha⟩, htrig⟩
      exact List.mem_toFinset.mp (trigClosure_sub_all cfg _ ha)
  · rintro ⟨a, ha, htrig⟩
    by_cases hval : validBlkB cfg b = true
    · have haF := (mem_blockList.mp ha).2
      have hb := trigClosure_closed cfg _ a b haF htrig
        (List.mem_toFinset.mpr (mem_allBlocksList.mpr hval))
      exact mem_blockList.mpr ⟨mem_allBlocksList.mpr hval, hb⟩
    · rw [trigB_invalid hval] at htrig
      cases htrig

lemma run_period0_iff (cfg : SystemConfig) (beh : NodeBehavior) (sched : AckSchedule)
    (b : Blk) (hper : (blk cfg b).period = 0)
    (hbev : ∀ t x, x ∈ beh.events t → (x.1, x.2.1) ≠ b) :
    ∀ (fuel : Nat) (st : GCState), (∀ e ∈ st.queue, (e.node, e.block) ≠ b) →
      ∀ t fired wsL, Event.TickCompleted t fired wsL ∈ run cfg beh sched fuel st →
        (b ∈ fired ↔ ∃ a ∈ fired, trigB cfg a b = true) := by
  intro fuel
  induction fuel with
  | zero =>
    intro st hno t fired wsL hmem
    simp [run] at hmem
  | succ fuel ih =>
    intro st hno t fired wsL hmem
    simp only [run] at hmem
    split at hmem
    · simp at hmem
    · have htick : ∀ (hm : Event.TickCompleted t fired wsL ∈ (tick cfg beh sched st).2.1),
          (b ∈ fired ↔ ∃ a ∈ fired, trigB cfg a b = true) := by
        intro hm
        obtain ⟨_, hfe⟩ := tick_tickCompleted_elim hm
        rw [hfe]
        exact fired_iff_trig hno
      split at hmem
      · rcases List.mem_append.mp hmem with h1 | h1
        · exact htick h1
        · simp at h1
      · split at hmem
        · rcases List.mem_append.mp hmem with h1 | h1
          · exact htick h1
          · simp at h1
        · rcases List.mem_append.mp hmem with h1 | h1
          · exact htick h1
          · refine ih (tick cfg beh sched st).1 ?_ t fired wsL h1
            rename_i hoc hft
            intro e he
            simp only [tick] at he
            split at he
            · exact hno e (mem_tickRest he)
            · split at he
              · exact hno e (mem_tickRest (List.mem_filter.mp he).1)
              · split at he
                · rcases List.mem_append.mp he with h2 | h2
                  · rcases List.mem_append.mp h2 with h3 | h3
                    · exact hno e (mem_tickRest h3)
                    · simp only [rescheduleEntries, List.mem_filterMap] at h3
                      obtain ⟨a, haf, hif⟩ := h3
                      split at hif
                      · rename_i hpos
                        cases hif
                        intro heq
                        simp only at heq
                        rw [show a = b from by
                          obtain ⟨a1, a2⟩ := a
                          simpa using heq] at hpos
                        omega
                      · cases hif
                  · simp only [irregularEntries, List.mem_filterMap] at h2
                    obtain ⟨x, hx, hif⟩ := h2
                    split at hif
                    · cases hif
                      exact hbev _ x hx
                    · cases hif
                · exact hno e (mem_tickRest (List.mem_filter.mp he).1)

end OBN

open OBN

/-- Claim C3: virtual-time monotonicity. In every run started from a state whose queue entries all lie at or after the current virtual time, the sequence of TickStarted times is non-decreasing. -/
theorem C3_virtual_time_monotone :
    ∀ (cfg : SystemConfig) (beh : NodeBehavior) (sched : AckSchedule) (fuel : Nat)
      (st : GCState), QInv st →
      List.Chain' (· ≤ ·) (tickTimes (run cfg beh sched fuel st)) := by
  intro cfg beh sched fuel st h
  exact (run_times_chain cfg beh sched fuel st h).tail

theorem C3_virtual_time_monotone_witness :
    List.Chain' (· ≤ ·) (tickTimes (run demo1 allAck idSched 8 (initState demo1))) :=
  C3_virtual_time_monotone demo1 allAck idSched 8 (initState demo1)
    (fun e _ => Nat.zero_le e.fire_time)

/-- Claim C7: UPDATE_X gating by needs_state_update. A node whose declaration has needs_state_update = false never receives SIM_X in any run; conversely, on a successful tick every node with a fired block and the flag set receives SIM_X. -/
theorem C7_updateX_gating :
    (∀ (cfg : SystemConfig) (beh : NodeBehavior) (sched : AckSchedule) (fuel : Nat)
       (st : GCState) (t : Nat) (n : Nat) (mask : List Nat) (rs : Bool),
      (nodeDecl cfg n).needs_state_update = false →
      Event.SendX t n mask rs ∉ run cfg beh sched fuel st) ∧
    (∀ (cfg : SystemConfig) (beh : NodeBehavior) (sched : AckSchedule) (st : GCState)
       (ws : List (Finset Blk)),
      waves cfg (tickFired cfg st.queue) = some ws →
      (runWaves cfg beh sched (minTime st.queue) 0 ws).2 = none →
      ∀ n, ((∃ mask rs, Event.SendX (minTime st.queue) n mask rs ∈ (tick cfg beh sched st).2.1) ↔
        (maskOf (blockList cfg (tickFired cfg st.queue)) n ≠ [] ∧
          (nodeDecl cfg n).needs_state_update = true))) := by
  constructor
  · intro cfg beh sched fuel
    induction fuel with
    | zero =>
      intro st t n mask rs hne hmem
      simp [run] at hmem
    | succ fuel ih =>
      intro st t n mask rs hne hmem
      simp only [run] at hmem
      split at hmem
      · simp at hmem
      · split at hmem
        · rcases List.mem_append.mp hmem with h1 | h1
          · obtain ⟨_, hx, _⟩ := tick_sendX_elim h1
            rw [mem_xNodes] at hx
            rw [hx.2] at hne
            cases hne
          · simp at h1
        · split at hmem
          · rcases List.mem_append.mp hmem with h1 | h1
            · obtain ⟨_, hx, _⟩ := tick_sendX_elim h1
              rw [mem_xNodes] at hx
              rw [hx.2] at hne
              cases hne
            · simp at h1
          · rcases List.mem_append.mp hmem with h1 | h1
            · obtain ⟨_, hx, _⟩ := tick_sendX_elim h1
              rw [mem_xNodes] at hx
              rw [hx.2] at hne
              cases hne
            · exact ih _ t n mask rs hne h1
  · intro cfg beh sched st ws hw hy n
    constructor
    · rintro ⟨mask, rs, hmem⟩
      obtain ⟨_, hx, _⟩ := tick_sendX_elim hmem
      exact mem_xNodes.mp hx
    · rintro ⟨hmask, hneed⟩
      exact ⟨_, _, tick_sendX_intro hw hy (mem_xNodes.mpr ⟨hmask, hneed⟩)⟩

theorem C7_updateX_gating_witness :
    Event.SendX 0 1 [0] false ∉ run demo2 allAck idSched 5 (initState demo2) :=
  C7_updateX_gating.1 demo2 allAck idSched 5 (initState demo2) 0 1 [0] false (by rfl)

/-- Claim C6: event-only blocks. A block with period 0 never enters the event queue on its own: it is absent from the initial queue, and at every tick it fires exactly when some block feeding one of its triggering inputs fires in the same tick. -/
theorem C6_event_only_blocks :
    (∀ (cfg : SystemConfig) (e : QEntry),
      e ∈ initQueue cfg ↔ (validBlkB cfg (e.node, e.block) = true ∧
        0 < (blk cfg (e.node, e.block)).period ∧ e.fire_time = 0 ∧ e.reason = .Periodic)) ∧
    (∀ (cfg : SystemConfig) (beh : NodeBehavior) (sched : AckSchedule) (fuel : Nat) (b : Blk),
      (blk cfg b).period = 0 →
      (∀ t x, x ∈ beh.events t → (x.1, x.2.1) ≠ b) →
      ∀ t fired wsL, Event.TickCompleted t fired wsL ∈ run cfg beh sched fuel (initState cfg) →
        (b ∈ fired ↔ ∃ a ∈ fired, trigB cfg a b = true)) := by
  constructor
  · intro cfg e
    constructor
    · intro he
      simp only [initQueue, List.mem_filterMap] at he
      obtain ⟨b, hb, hf⟩ := he
      split at hf
      · rename_i hpos
        cases hf
        refine ⟨?_, ?_, rfl, rfl⟩
        · simpa [Prod.mk.eta] using mem_allBlocksList.mp hb
        · simpa [Prod.mk.eta] using hpos
      · cases hf
    · rintro ⟨hval, hpos, hft, hr⟩
      simp only [initQueue, List.mem_filterMap]
      obtain ⟨ft, n, k, r⟩ := e
      subst hft
      subst hr
      exact ⟨(n, k), mem_allBlocksList.mpr hval, by rw [if_pos hpos]⟩
  · intro cfg beh sched fuel b hper hbev t fired wsL hmem
    refine run_period0_iff cfg beh sched b hper hbev fuel (initState cfg) ?_ t fired wsL hmem
    intro e he heq
    simp only [initState, initQueue, List.mem_filterMap] at he
    obtain ⟨a, ha, hf⟩ := he
    split at hf
    · rename_i hpos
      cases hf
      rw [show a = b from by
        obtain ⟨a1, a2⟩ := a
        simpa using heq] at hpos
      omega
    · cases hf

theorem C6_event_only_blocks_witness :
    ((1, 0) ∈ [((0 : Nat), (0 : Nat)), (1, 0)] ↔
      ∃ a ∈ [((0 : Nat), (0 : Nat)), (1, 0)], trigB demo2 a (1, 0) = true) :=
  C6_event_only_blocks.2 demo2 allAck idSched 20 (1, 0) rfl
    (fun _ x hx => absurd hx (List.not_mem_nil x)) 0 [(0, 0), (1, 0)] [[(0, 0), (1, 0)]]
    (by decide)

namespace OBN

lemma mem_maskOf {l : List Blk} {n k : Nat} : k ∈ maskOf l n ↔ (n, k) ∈ l := by
  simp only [maskOf, List.mem_map, List.mem_filter, beq_iff_eq]
  constructor
  · rintro ⟨b, ⟨hb, hbn⟩, hbk⟩
    obtain ⟨b1, b2⟩ := b
    cases hbn
    cases hbk
    exact hb
  · intro h
    exact ⟨(n, k), ⟨h, rfl⟩, rfl⟩

lemma wavesAux_sub (cfg : SystemConfig) :
    ∀ (fuel : Nat) (rem : Finset Blk) (ws : List (Finset Blk)),
      wavesAux cfg fuel rem = some ws → ∀ w ∈ ws, w ⊆ rem := by
  intro fuel
  induction fuel with
  | zero =>
    intro rem ws h w hw
    simp only [wavesAux] at h
    split at h
    · cases h
      cases hw
    · cases h
  | succ fuel ih =>
    intro rem ws h w hw
    simp only [wavesAux] at h
    split at h
    · cases h
      cases hw
    · split at h
      · cases h
      · rename_i hne hfront
        cases hws : wavesAux cfg fuel (rem \ waveFront cfg rem) with
        | none => rw [hws] at h; cases h
        | some ws' =>
          rw [hws] at h
          simp only [Option.map_some', Option.some.injEq] at h
          subst h
          rcases List.mem_cons.mp hw with rfl | hw'
          · exact Finset.filter_subset _ _
          · exact (ih _ _ hws w hw').trans (Finset.sdiff_subset)

lemma wavesAux_cover (cfg : SystemConfig) :
    ∀ (fuel : Nat) (rem : Finset Blk) (ws : List (Finset Blk)),
      wavesAux cfg fuel rem = some ws → ∀ b ∈ rem, ∃ w ∈ ws, b ∈ w := by
  intro fuel
  induction fuel with
  | zero =>
    intro rem ws h b hb
    simp only [wavesAux] at h
    split at h
    · rename_i hrem
      subst hrem
      cases hb
    · cases h
  | succ fuel ih =>
    intro rem ws h b hb
    simp only [wavesAux] at h
    split at h
    · rename_i hrem
      subst hrem
      cases hb
    · split at h
      · cases h
      · rename_i hne hfront
        cases hws : wavesAux cfg fuel (rem \ waveFront cfg rem) with
        | none => rw [hws] at h; cases h
        | some ws' =>
          rw [hws] at h
          simp only [Option.map_some', Option.some.injEq] at h
          subst h
          by_cases hbf : b ∈ waveFront cfg rem
          · exact ⟨waveFront cfg rem, List.mem_cons_self _ _, hbf⟩
          · obtain ⟨w, hw, hbw⟩ := ih _ _ hws b (Finset.mem_sdiff.mpr ⟨hb, hbf⟩)
            exact ⟨w, List.mem_cons_of_mem _ hw, hbw⟩

lemma waves_sub {cfg : SystemConfig} {F : Finset Blk} {ws : List (Finset Blk)}
    (h : waves cfg F = some ws) : ∀ w ∈ ws, w ⊆ F :=
  wavesAux_sub cfg _ _ _ h

lemma waves_cover {cfg : SystemConfig} {F : Finset Blk} {ws : List (Finset Blk)}
    (h : waves cfg F = some ws) : ∀ b ∈ F, ∃ w ∈ ws, b ∈ w :=
  wavesAux_cover cfg _ _ _ h

lemma runWaves_success_acks (cfg : SystemConfig) (beh : NodeBehavior) (sched : AckSchedule)
    (t : Nat) :
    ∀ (ws : List (Finset Blk)) (wi : Nat),
      (runWaves cfg beh sched t wi ws).2 = none →
      ∀ w ∈ ws, ∀ n ∈ nodesOf (blockList cfg w),
        Event.AckY t n (maskOf (blockList cfg w) n) ∈ (runWaves cfg beh sched t wi ws).1 := by
  intro ws
  induction ws with
  | nil => intro wi h w hw; cases hw
  | cons w0 rest ih =>
    intro wi h w hw n hn
    simp only [runWaves] at h ⊢
    split at h
    · rename_i hsucc
      rw [if_pos hsucc]
      rcases List.mem_cons.mp hw with rfl | hw'
      · exact List.mem_append_left _ (phase_success_acked _ _ _ _ _ _ _ hsucc n hn)
      · exact List.mem_append_right _ (ih (wi + 1) h w hw' n hn)
    · cases h

end OBN

namespace OBN

lemma mem_of_getElemOpt {α : Type} {l : List α} {i : Nat} {a : α} (h : l[i]? = some a) :
    a ∈ l := by
  have hlt : i < l.length := by
    by_contra hc
    rw [List.getElem?_eq_none (Nat.le_of_not_lt hc)] at h
    cases h
  rw [List.getElem?_eq_getElem hlt] at h
  injection h with h
  exact h ▸ List.getElem_mem hlt

lemma getElemOpt_of_mem {α : Type} {l : List α} {a : α} (h : a ∈ l) :
    ∃ i < l.length, l[i]? = some a := by
  obtain ⟨i, hi, he⟩ := List.getElem_of_mem h
  exact ⟨i, hi, by rw [List.getElem?_eq_getElem hi, he]⟩

lemma barrier_position {ts a e : Event} {ys rest : List Event} {j : Nat}
    (hj : (ts :: ys ++ rest)[j]? = some e)
    (hne_ts : e ≠ ts) (hne_ys : e ∉ ys) (ha : a ∈ ys) :
    ∃ i < j, (ts :: ys ++ rest)[i]? = some a := by
  obtain ⟨i0, hi0, hidx⟩ := getElemOpt_of_mem ha
  have hglobal : (ts :: ys ++ rest)[i0 + 1]? = some a :=
    (List.getElem?_cons_succ ..).trans ((List.getElem?_append_left hi0).trans hidx)
  have hjbound : ys.length + 1 ≤ j := by
    by_contra hc
    push_neg at hc
    cases j with
    | zero =>
      have hj0 : some ts = some e := (List.getElem?_cons_zero ..).symm.trans hj
      injection hj0 with hj0
      exact hne_ts hj0.symm
    | succ j' =>
      have hj1 : (ys ++ rest)[j']? = some e := (List.getElem?_cons_succ ..).symm.trans hj
      have hlt : j' < ys.length := by omega
      rw [List.getElem?_append_left hlt] at hj1
      exact hne_ys (mem_of_getElemOpt hj1)
  exact ⟨i0 + 1, by omega, hglobal⟩

lemma tick_sendX_branch {cfg : SystemConfig} {beh : NodeBehavior} {sched : AckSchedule}
    {st : GCState} {t n : Nat} {mask : List Nat} {rs : Bool}
    (h : Event.SendX t n mask rs ∈ (tick cfg beh sched st).2.1) :
    ∃ ws, waves cfg (tickFired cfg st.queue) = some ws ∧
      (runWaves cfg beh sched (minTime st.queue) 0 ws).2 = none := by
  cases hw : waves cfg (tickFired cfg st.queue) with
  | none =>
    simp only [tick, hw] at h
    simp at h
  | some ws =>
    cases hy : (runWaves cfg beh sched (minTime st.queue) 0 ws).2 with
    | some touts =>
      simp only [tick, hw, hy] at h
      rcases List.mem_cons.mp h with heq | h'
      · exact Event.noConfusion heq
      · rcases List.mem_append.mp h' with h2 | h2
        · rcases List.mem_append.mp h2 with h3 | h3
          · exact (notX_runWaves h3).elim
          · obtain ⟨_, _, heq⟩ := List.mem_map.mp h3
            exact Event.noConfusion heq
        · rcases List.mem_cons.mp h2 with heq | h3
          · exact Event.noConfusion heq
          · cases h3
    | none => exact ⟨ws, rfl, hy⟩

lemma tick_events_ysucc {cfg : SystemConfig} {beh : NodeBehavior} {sched : AckSchedule}
    {st : GCState} {ws : List (Finset Blk)}
    (hw : waves cfg (tickFired cfg st.queue) = some ws)
    (hy : (runWaves cfg beh sched (minTime st.queue) 0 ws).2 = none) :
    ∃ tail, (tick cfg beh sched st).2.1 =
      .TickStarted (minTime st.queue) ::
        ((runWaves cfg beh sched (minTime st.queue) 0 ws).1 ++
          (tickXPhase cfg beh sched (minTime st.queue)
            (blockList cfg (tickFired cfg st.queue))).1 ++ tail) := by
  simp only [tick, hw, hy]
  split
  · exact ⟨_, rfl⟩
  · exact ⟨_, congrArg (fun l => Event.TickStarted (minTime st.queue) :: l)
      (List.append_assoc _ _ _)⟩

end OBN

open OBN in
/-- Claim C1: the UPDATE_X barrier. Whenever the coordinator emits a `SIM_X(t, mask)` event during a tick, every block in the mask belongs to a wave whose `SIM_ACK` (the `AckY` report of that node) occurs strictly earlier in the tick's event sequence: SIM_X is only sent after every fired block of the tick acknowledged its UPDATE_Y. -/
theorem C1_barrier :
    ∀ (cfg : SystemConfig) (beh : NodeBehavior) (sched : AckSchedule) (st : GCState)
      (j t n : Nat) (mask : List Nat) (rs : Bool),
      ((tick cfg beh sched st).2.1)[j]? = some (.SendX t n mask rs) →
      ∀ k ∈ mask, ∃ i < j, ∃ mask2,
        ((tick cfg beh sched st).2.1)[i]? = some (.AckY t n mask2) ∧ k ∈ mask2 := by
  intro cfg beh sched st j t n mask rs hj k hk
  have hmem := mem_of_getElemOpt hj
  obtain ⟨ws, hw, hy⟩ := tick_sendX_branch hmem
  obtain ⟨htm, hxn, hmask⟩ := tick_sendX_elim hmem
  subst htm
  subst hmask
  have hkF : (n, k) ∈ blockList cfg (tickFired cfg st.queue) := mem_maskOf.mp hk
  have hkF2 : (n, k) ∈ tickFired cfg st.queue := (mem_blockList.mp hkF).2
  obtain ⟨w, hwmem, hbw⟩ := waves_cover hw _ hkF2
  have hkbl : (n, k) ∈ blockList cfg w := mem_blockList.mpr ⟨(mem_blockList.mp hkF).1, hbw⟩
  have hnw : n ∈ nodesOf (blockList cfg w) := mem_nodesOf.mpr ⟨(n, k), hkbl, rfl⟩
  have hack := runWaves_success_acks cfg beh sched (minTime st.queue) ws 0 hy w hwmem n hnw
  obtain ⟨tail, hev⟩ := tick_events_ysucc hw hy
  rw [hev, List.append_assoc] at hj ⊢
  obtain ⟨i, hij, hidx⟩ := barrier_position hj (fun hcon => Event.noConfusion hcon)
    (fun hmem2 => notX_runWaves hmem2) hack
  exact ⟨i, hij, maskOf (blockList cfg w) n, hidx, mem_maskOf.mpr hkbl⟩

theorem C1_barrier_witness :
    ∃ i < 3, ∃ mask2,
      ((tick demo1 allAck idSched (initState demo1)).2.1)[i]? =
        some (.AckY 0 0 mask2) ∧ 0 ∈ mask2 :=
  C1_barrier demo1 allAck idSched (initState demo1) 3 0 0 [0] false (by decide) 0
    (by decide)

namespace OBN

lemma phase_pend_sub (mkSend : Bool → Nat → Event) (mkAck : Nat → Event)
    (ack1 ack2 : Nat → Bool) (sched1 sched2 : List Nat → List Nat) (ns : List Nat)
    (x : Nat) (hx : x ∈ (phase mkSend mkAck ack1 ack2 sched1 sched2 ns).2) :
    x ∈ ns := by
  by_cases hp1 : (procAcks mkAck (sched1 (List.filter ack1 ns)) ns.toFinset).1 = ∅
  · rw [phase_snd_pos mkSend mkAck ack1 ack2 sched1 sched2 ns hp1] at hx
    exact absurd hx (Finset.not_mem_empty x)
  · rw [phase_snd_neg mkSend mkAck ack1 ack2 sched1 sched2 ns hp1] at hx
    exact List.mem_toFinset.mp (procAcks_pending_sub mkAck _ _ x
      (procAcks_pending_sub mkAck _ _ x hx))

lemma runWaves_fail_sub (cfg : SystemConfig) (beh : NodeBehavior) (sched : AckSchedule)
    (t : Nat) :
    ∀ (ws : List (Finset Blk)) (wi : Nat) (touts : Finset Nat),
      (runWaves cfg beh sched t wi ws).2 = some touts →
      ∃ w ∈ ws, ∀ x ∈ touts, x ∈ nodesOf (blockList cfg w) := by
  intro ws
  induction ws with
  | nil => intro wi touts h; cases h
  | cons w rest ih =>
    intro wi touts h
    simp only [runWaves] at h
    split at h
    · obtain ⟨w2, hw2, hsub⟩ := ih (wi + 1) touts h
      exact ⟨w2, List.mem_cons_of_mem _ hw2, hsub⟩
    · injection h with h
      subst h
      exact ⟨w, List.mem_cons_self _ _, fun x hx => phase_pend_sub _ _ _ _ _ _ _ x hx⟩

lemma count_map_eq_zero {α β : Type} [DecidableEq β] (l : List α) (f : α → β) (b : β)
    (h : ∀ a, f a ≠ b) : (l.map f).count b = 0 :=
  List.count_eq_zero.mpr (fun hb => by
    obtain ⟨a, _, ha⟩ := List.mem_map.mp hb
    exact h a ha)

lemma procAcks_count_zero (mkAck : Nat → Event) (arr : List Nat) (pending : Finset Nat)
    (e : Event) (h : ∀ n, mkAck n ≠ e) : ((procAcks mkAck arr pending).2).count e = 0 :=
  List.count_eq_zero.mpr (fun hmem => by
    obtain ⟨n, hn⟩ := procAcks_events mkAck arr pending e hmem
    exact h n hn.symm)

lemma phase_resend_count (mkSend : Bool → Nat → Event) (mkAck : Nat → Event)
    (ack1 ack2 : Nat → Bool) (sched1 sched2 : List Nat → List Nat) (ns : List Nat)
    (n : Nat) (hnd : ns.Nodup) (hinj : Function.Injective (mkSend true))
    (hff : ∀ n', mkSend false n' ≠ mkSend true n)
    (hfa : ∀ n', mkAck n' ≠ mkSend true n) :
    ((phase mkSend mkAck ack1 ack2 sched1 sched2 ns).1).count (mkSend true n) =
      if n ∈ (procAcks mkAck (sched1 (List.filter ack1 ns)) ns.toFinset).1 then 1 else 0 := by
  by_cases hp1 : (procAcks mkAck (sched1 (List.filter ack1 ns)) ns.toFinset).1 = ∅
  · rw [phase_fst_pos mkSend mkAck ack1 ack2 sched1 sched2 ns hp1, if_neg]
    · rw [List.count_append, count_map_eq_zero _ _ _ hff,
        procAcks_count_zero mkAck _ _ _ hfa]
    · rw [hp1]
      exact Finset.not_mem_empty n
  · rw [phase_fst_neg mkSend mkAck ack1 ack2 sched1 sched2 ns hp1,
      List.count_append, List.count_append, List.count_append,
      count_map_eq_zero _ _ _ hff, procAcks_count_zero mkAck _ _ _ hfa,
      procAcks_count_zero mkAck _ _ _ hfa,
      List.count_map_of_injective _ _ hinj]
    simp only [Nat.zero_add, Nat.add_zero]
    by_cases hn : n ∈ (procAcks mkAck (sched1 (List.filter ack1 ns)) ns.toFinset).1
    · rw [if_pos hn]
      have hns : n ∈ ns := List.mem_toFinset.mp (procAcks_pending_sub mkAck _ _ n hn)
      have hmem : n ∈ List.filter
          (fun m => m ∈ (procAcks mkAck (sched1 (List.filter ack1 ns)) ns.toFinset).1) ns := by
        rw [List.mem_filter]
        exact ⟨hns, by simpa using hn⟩
      exact List.count_eq_one_of_mem (hnd.filter _) hmem
    · rw [if_neg hn, List.count_eq_zero.mpr]
      intro hmem
      rw [List.mem_filter] at hmem
      exact hn (by simpa using hmem.2)

lemma tick_yfail {cfg : SystemConfig} {beh : NodeBehavior} {sched : AckSchedule}
    {st : GCState} {ws : List (Finset Blk)} {touts : Finset Nat}
    (hw : waves cfg (tickFired cfg st.queue) = some ws)
    (hy : (runWaves cfg beh sched (minTime st.queue) 0 ws).2 = some touts) :
    tick cfg beh sched st =
      ({ t := minTime st.queue,
          queue := (tickRest st.queue).filter (fun e => ¬ e.node ∈ touts),
          live := cascadeLive st.live touts },
        .TickStarted (minTime st.queue) ::
          (runWaves cfg beh sched (minTime st.queue) 0 ws).1 ++
          ((nodesOf (blockList cfg (tickFired cfg st.queue))).filter
            (fun n => n ∈ touts)).map (fun n => .NodeTimedOut n) ++
          [.BroadcastTerm (minTime st.queue)], .err) := by
  simp only [tick, hw, hy]

end OBN

open OBN in
/-- Claim C5: the failure policy of spec 4.6. (a) In every ack-collection phase, a node silent past the first deadline is resent the same message exactly once, and a node that acked in time receives no resend; (b) a node silent past both deadlines aborts the tick: it is marked TimedOut, its remaining queue entries are purged, NodeTimedOut and the SIM_TERM broadcast are emitted, no SIM_X is sent in that tick, and the run finishes with reason errored. -/
theorem C5_timeout_policy :
    (∀ (t : Nat) (maskFn : Nat → List Nat) (ack1 ack2 : Nat → Bool)
        (sched1 sched2 : List Nat → List Nat) (ns : List Nat) (n : Nat), ns.Nodup →
      ((phase (fun rs m => .SendY t m (maskFn m) rs) (fun m => .AckY t m (maskFn m))
          ack1 ack2 sched1 sched2 ns).1).count (.SendY t n (maskFn n) true) =
        if n ∈ (procAcks (fun m => Event.AckY t m (maskFn m)) (sched1 (List.filter ack1 ns))
            ns.toFinset).1 then 1 else 0) ∧
    (∀ (cfg : SystemConfig) (beh : NodeBehavior) (sched : AckSchedule) (st : GCState)
        (ws : List (Finset Blk)) (touts : Finset Nat) (n : Nat),
      waves cfg (tickFired cfg st.queue) = some ws →
      (runWaves cfg beh sched (minTime st.queue) 0 ws).2 = some touts →
      n ∈ touts →
      (tick cfg beh sched st).2.2 = .err ∧
      (tick cfg beh sched st).1.live n = .TimedOut ∧
      (∀ e ∈ (tick cfg beh sched st).1.queue, e.node ≠ n) ∧
      Event.NodeTimedOut n ∈ (tick cfg beh sched st).2.1 ∧
      Event.BroadcastTerm (minTime st.queue) ∈ (tick cfg beh sched st).2.1 ∧
      (∀ (t' n' : Nat) (mask : List Nat) (rs : Bool),
        Event.SendX t' n' mask rs ∉ (tick cfg beh sched st).2.1) ∧
      (st.queue ≠ [] → ∀ fuel : Nat,
        run cfg beh sched (fuel + 1) st =
          (tick cfg beh sched st).2.1 ++ [.Finished .errored])) := by
  constructor
  · intro t maskFn ack1 ack2 sched1 sched2 ns n hnd
    exact phase_resend_count (fun rs m => .SendY t m (maskFn m) rs)
      (fun m => .AckY t m (maskFn m)) ack1 ack2 sched1 sched2 ns n hnd
      (by intro a b h; injection h)
      (by intro n' h; simp at h)
      (by intro n' h; exact Event.noConfusion h)
  · intro cfg beh sched st ws touts n hw hy hn
    have ht := tick_yfail hw hy
    rw [ht]
    refine ⟨rfl, ?_, ?_, ?_, ?_, ?_, ?_⟩
    · simp [cascadeLive, hn]
    · intro e he heq
      rw [List.mem_filter] at he
      have : ¬ e.node ∈ touts := by simpa using he.2
      exact this (heq ▸ hn)
    · obtain ⟨w, hwmem, hsub⟩ := runWaves_fail_sub cfg beh sched _ ws 0 touts hy
      obtain ⟨b, hb, hbn⟩ := mem_nodesOf.mp (hsub n hn)
      obtain ⟨hball, hbw⟩ := mem_blockList.mp hb
      have hbf : b ∈ blockList cfg (tickFired cfg st.queue) :=
        mem_blockList.mpr ⟨hball, waves_sub hw w hwmem hbw⟩
      have hnf : n ∈ nodesOf (blockList cfg (tickFired cfg st.queue)) :=
        mem_nodesOf.mpr ⟨b, hbf, hbn⟩
      have hmem : Event.NodeTimedOut n ∈
          ((nodesOf (blockList cfg (tickFired cfg st.queue))).filter
            (fun m => m ∈ touts)).map (fun m => Event.NodeTimedOut m) :=
        List.mem_map.mpr ⟨n, List.mem_filter.mpr ⟨hnf, by simpa using hn⟩, rfl⟩
      exact List.mem_cons_of_mem _ (List.mem_append_left _ (List.mem_append_right _ hmem))
    · exact List.mem_cons_of_mem _ (List.mem_append_right _ (List.mem_singleton.mpr rfl))
    · intro t' n' mask rs hmem
      rcases List.mem_cons.mp hmem with heq | hmem2
      · exact Event.noConfusion heq
      rcases List.mem_append.mp hmem2 with hmem3 | hbt
      · rcases List.mem_append.mp hmem3 with hyr | hnto
        · exact notX_runWaves hyr
        · obtain ⟨m, _, heq⟩ := List.mem_map.mp hnto
          exact Event.noConfusion heq
      · exact Event.noConfusion (List.mem_singleton.mp hbt)
    · intro hq fuel
      simp only [run]
      rw [if_neg (by simpa using hq), ht]

open OBN in
theorem C5_timeout_policy_witness :
    ((OBN.phase (fun rs m => Event.SendY 0 m [0] rs) (fun m => Event.AckY 0 m [0])
        (fun _ => false) (fun _ => false) (fun l => l) (fun l => l) [0]).1).count
        (Event.SendY 0 0 [0] true) = 1 ∧
      (tick demo1 behTO idSched (initState demo1)).2.2 = Outcome.err ∧
      (tick demo1 behTO idSched (initState demo1)).1.live 0 = .TimedOut ∧
      Event.NodeTimedOut 0 ∈ (tick demo1 behTO idSched (initState demo1)).2.1 := by
  have h2 := C5_timeout_policy.2 demo1 behTO idSched (initState demo1)
    [({(0, 0)} : Finset (Nat × Nat))] ({0} : Finset Nat) 0
    (by decide) (by decide) (by decide)
  have h1 := C5_timeout_policy.1 0 (fun _ => [0]) (fun _ => false) (fun _ => false)
    (fun l => l) (fun l => l) [0] 0 (by decide)
  exact ⟨h1.trans (by decide), h2.1, h2.2.1, h2.2.2.2.1⟩

namespace OBN

lemma notF_runWaves {cfg : SystemConfig} {beh : NodeBehavior} {sched : AckSchedule}
    {tm : Nat} {wi : Nat} {ws : List (Finset Blk)} {r : FinReason}
    (h : Event.Finished r ∈ (runWaves cfg beh sched tm wi ws).1) : False := by
  rcases runWaves_events _ _ _ _ _ _ _ h with ⟨_, _, _, heq⟩ | ⟨_, _, heq⟩ <;>
    exact Event.noConfusion heq

lemma notF_tickXPhase {cfg : SystemConfig} {beh : NodeBehavior} {sched : AckSchedule}
    {m : Nat} {firedL : List Blk} {r : FinReason}
    (h : Event.Finished r ∈ (tickXPhase cfg beh sched m firedL).1) : False := by
  rcases tickXPhase_events _ _ _ _ _ _ h with ⟨_, _, _, heq⟩ | ⟨_, _, heq⟩ <;>
    exact Event.noConfusion heq

lemma tick_finished_elim {cfg : SystemConfig} {beh : NodeBehavior} {sched : AckSchedule}
    {st : GCState} {r : FinReason}
    (h : Event.Finished r ∈ (tick cfg beh sched st).2.1) : False := by
  simp only [tick] at h
  split at h
  · simp at h
  · split at h
    · rcases List.mem_cons.mp h with heq | h'
      · exact Event.noConfusion heq
      · rcases List.mem_append.mp h' with h2 | h2
        · rcases List.mem_append.mp h2 with h3 | h3
          · exact notF_runWaves h3
          · obtain ⟨_, _, heq⟩ := List.mem_map.mp h3
            exact Event.noConfusion heq
        · rcases List.mem_cons.mp h2 with heq | h3
          · exact Event.noConfusion heq
          · cases h3
    · split at h
      · rcases List.mem_cons.mp h with heq | h'
        · exact Event.noConfusion heq
        · rcases List.mem_append.mp h' with h2 | h2
          · rcases List.mem_append.mp h2 with h3 | h3
            · exact notF_runWaves h3
            · exact notF_tickXPhase h3
          · rcases List.mem_cons.mp h2 with heq | h3
            · exact Event.noConfusion heq
            · cases h3
      · rcases List.mem_cons.mp h with heq | h'
        · exact Event.noConfusion heq
        · rcases List.mem_append.mp h' with h2 | h2
          · rcases List.mem_append.mp h2 with h3 | h3
            · rcases List.mem_append.mp h3 with h4 | h4
              · exact notF_runWaves h4
              · exact notF_tickXPhase h4
            · obtain ⟨_, _, heq⟩ := List.mem_map.mp h3
              exact Event.noConfusion heq
          · rcases List.mem_cons.mp h2 with heq | h3
            · exact Event.noConfusion heq
            · cases h3

lemma tick_ok_parts {cfg : SystemConfig} {beh : NodeBehavior} {sched : AckSchedule}
    {st : GCState} (h : (tick cfg beh sched st).2.2 = Outcome.ok) :
    ∃ ws, waves cfg (tickFired cfg st.queue) = some ws ∧
      (runWaves cfg beh sched (minTime st.queue) 0 ws).2 = none ∧
      (tickXPhase cfg beh sched (minTime st.queue)
        (blockList cfg (tickFired cfg st.queue))).2 = ∅ ∧
      tick cfg beh sched st =
        ({ t := minTime st.queue,
            queue := tickRest st.queue ++
              rescheduleEntries cfg (minTime st.queue)
                (blockList cfg (tickFired cfg st.queue)) ++
              irregularEntries cfg (minTime st.queue) (beh.events (minTime st.queue)),
            live := st.live },
          .TickStarted (minTime st.queue) ::
            (runWaves cfg beh sched (minTime st.queue) 0 ws).1 ++
            (tickXPhase cfg beh sched (minTime st.queue)
              (blockList cfg (tickFired cfg st.queue))).1 ++
            [.TickCompleted (minTime st.queue) (blockList cfg (tickFired cfg st.queue))
              (ws.map (blockList cfg))], Outcome.ok) := by
  cases hw : waves cfg (tickFired cfg st.queue) with
  | none =>
    exfalso
    simp only [tick, hw] at h
    exact Outcome.noConfusion h
  | some ws =>
    cases hy : (runWaves cfg beh sched (minTime st.queue) 0 ws).2 with
    | some touts =>
      exfalso
      rw [tick_yfail hw hy] at h
      exact Outcome.noConfusion h
    | none =>
      by_cases hx : (tickXPhase cfg beh sched (minTime st.queue)
          (blockList cfg (tickFired cfg st.queue))).2 = ∅
      · refine ⟨ws, rfl, hy, hx, ?_⟩
        simp only [tick, hw, hy]
        rw [if_pos hx]
      · exfalso
        simp only [tick, hw, hy] at h
        rw [if_neg hx] at h
        exact Outcome.noConfusion h

lemma run_succ_err {cfg : SystemConfig} {beh : NodeBehavior} {sched : AckSchedule}
    {st : GCState} {fuel : Nat} (hq : st.queue ≠ [])
    (ho : (tick cfg beh sched st).2.2 = Outcome.err) :
    run cfg beh sched (fuel + 1) st =
      (tick cfg beh sched st).2.1 ++ [.Finished .errored] := by
  simp only [run]
  rw [if_neg (by simpa using hq), ho]

lemma run_succ_done {cfg : SystemConfig} {beh : NodeBehavior} {sched : AckSchedule}
    {st : GCState} {fuel : Nat} (hq : st.queue ≠ [])
    (ho : (tick cfg beh sched st).2.2 = Outcome.ok)
    (hfin : cfg.final_time ≤ (tick cfg beh sched st).1.t) :
    run cfg beh sched (fuel + 1) st =
      (tick cfg beh sched st).2.1 ++
        [.BroadcastTerm (tick cfg beh sched st).1.t, .Finished .done] := by
  simp only [run]
  rw [if_neg (by simpa using hq), ho, if_pos hfin]

lemma run_succ_step {cfg : SystemConfig} {beh : NodeBehavior} {sched : AckSchedule}
    {st : GCState} {fuel : Nat} (hq : st.queue ≠ [])
    (ho : (tick cfg beh sched st).2.2 = Outcome.ok)
    (hfin : ¬ cfg.final_time ≤ (tick cfg beh sched st).1.t) :
    run cfg beh sched (fuel + 1) st =
      (tick cfg beh sched st).2.1 ++ run cfg beh sched fuel (tick cfg beh sched st).1 := by
  simp only [run]
  rw [if_neg (by simpa using hq), ho, if_neg hfin]

lemma tickFired_of_popped {cfg : SystemConfig} {q : List QEntry} {e : QEntry}
    (he : e ∈ q) (ht : e.fire_time = minTime q)
    (hv : (e.node, e.block) ∈ allBlocksList cfg) :
    (e.node, e.block) ∈ tickFired cfg q := by
  apply trigClosure_subset
  rw [Finset.mem_inter]
  refine ⟨List.mem_toFinset.mpr ?_, ?_⟩
  · exact List.mem_map.mpr ⟨e, List.mem_filter.mpr ⟨he, by simp [ht]⟩, rfl⟩
  · rw [allBlocksF, List.mem_toFinset]
    exact hv

lemma run_entry_fires (cfg : SystemConfig) (beh : NodeBehavior) (sched : AckSchedule) :
    ∀ (fuel : Nat) (st : GCState) (e : QEntry),
      e ∈ st.queue → (e.node, e.block) ∈ allBlocksList cfg →
      e.fire_time ≤ cfg.final_time →
      Event.Finished .done ∈ run cfg beh sched fuel st →
      ∃ fired2 wsL2,
        Event.TickCompleted e.fire_time fired2 wsL2 ∈ run cfg beh sched fuel st ∧
          (e.node, e.block) ∈ fired2 := by
  intro fuel
  induction fuel with
  | zero => intro st e _ _ _ hd; cases hd
  | succ fuel ih =>
    intro st e he hv hf hd
    have hq : st.queue ≠ [] := fun hnil => by rw [hnil] at he; cases he
    cases ho : (tick cfg beh sched st).2.2 with
    | err =>
      rw [run_succ_err hq ho] at hd
      rcases List.mem_append.mp hd with h1 | h2
      · exact (tick_finished_elim h1).elim
      · simp at h2
    | ok =>
      obtain ⟨ws, hw, hy, hx, htick⟩ := tick_ok_parts ho
      have htt : (tick cfg beh sched st).1.t = minTime st.queue := tick_t cfg beh sched st
      by_cases hfin : cfg.final_time ≤ (tick cfg beh sched st).1.t
      · rw [run_succ_done hq ho hfin] at hd ⊢
        have heqt : e.fire_time = minTime st.queue :=
          le_antisymm (le_trans hf (htt ▸ hfin)) (minTime_le he)
        refine ⟨blockList cfg (tickFired cfg st.queue), ws.map (blockList cfg), ?_,
          mem_blockList.mpr ⟨hv, tickFired_of_popped he heqt hv⟩⟩
        apply List.mem_append_left
        rw [heqt, htick]
        exact List.mem_cons_of_mem _ (List.mem_append_right _ (List.mem_singleton.mpr rfl))
      · rw [run_succ_step hq ho hfin] at hd ⊢
        by_cases hpop : e.fire_time = minTime st.queue
        · refine ⟨blockList cfg (tickFired cfg st.queue), ws.map (blockList cfg), ?_,
            mem_blockList.mpr ⟨hv, tickFired_of_popped he hpop hv⟩⟩
          apply List.mem_append_left
          rw [hpop, htick]
          exact List.mem_cons_of_mem _ (List.mem_append_right _ (List.mem_singleton.mpr rfl))
        · have hrest : e ∈ tickRest st.queue :=
            List.mem_filter.mpr ⟨he, by simpa using hpop⟩
          have hq2 : e ∈ (tick cfg beh sched st).1.queue := by
            rw [htick]
            exact List.mem_append_left _ (List.mem_append_left _ hrest)
          have hd2 : Event.Finished .done ∈ run cfg beh sched fuel (tick cfg beh sched st).1 := by
            rcases List.mem_append.mp hd with h1 | h2
            · exact (tick_finished_elim h1).elim
            · exact h2
          obtain ⟨f2, w2, htc, hbm⟩ := ih (tick cfg beh sched st).1 e hq2 hv hf hd2
          exact ⟨f2, w2, List.mem_append_right _ htc, hbm⟩

end OBN

namespace OBN

lemma tick_ok_resched {cfg : SystemConfig} {beh : NodeBehavior} {sched : AckSchedule}
    {st : GCState} {b : Blk} (ho : (tick cfg beh sched st).2.2 = Outcome.ok)
    (hb : b ∈ blockList cfg (tickFired cfg st.queue)) (hP : 0 < (blk cfg b).period) :
    { fire_time := minTime st.queue + (blk cfg b).period, node := b.1, block := b.2,
      reason := Reason.Periodic } ∈ (tick cfg beh sched st).1.queue := by
  obtain ⟨ws, hw, hy, hx, htick⟩ := tick_ok_parts ho
  rw [htick]
  apply List.mem_append_left
  apply List.mem_append_right
  exact List.mem_filterMap.mpr ⟨b, hb, by rw [if_pos hP]⟩

end OBN

open OBN in
/-- Claim C4: reschedule and completeness. (a) On every successful tick, each fired block with period P > 0 is pushed back at t + P as a Periodic entry in the queue the tick hands over, i.e. before the tick completes; (b) in every run that finishes with reason done, a block with period P > 0 fired at t with t + P within final_time fires again at t + P. -/
theorem C4_reschedule_completeness :
    (∀ (cfg : SystemConfig) (beh : NodeBehavior) (sched : AckSchedule) (st : GCState) (b : Blk),
      (tick cfg beh sched st).2.2 = Outcome.ok →
      b ∈ blockList cfg (tickFired cfg st.queue) → 0 < (blk cfg b).period →
      { fire_time := minTime st.queue + (blk cfg b).period, node := b.1, block := b.2,
        reason := Reason.Periodic } ∈ (tick cfg beh sched st).1.queue) ∧
    (∀ (cfg : SystemConfig) (beh : NodeBehavior) (sched : AckSchedule) (fuel : Nat)
        (st : GCState) (t : Nat) (fired : List Blk) (wsL : List (List Blk)) (b : Blk),
      Event.Finished .done ∈ run cfg beh sched fuel st →
      Event.TickCompleted t fired wsL ∈ run cfg beh sched fuel st →
      b ∈ fired → 0 < (blk cfg b).period →
      t + (blk cfg b).period ≤ cfg.final_time →
      ∃ fired2 wsL2,
        Event.TickCompleted (t + (blk cfg b).period) fired2 wsL2 ∈
            run cfg beh sched fuel st ∧
          b ∈ fired2) := by
  constructor
  · intro cfg beh sched st b ho hb hP
    exact tick_ok_resched ho hb hP
  · intro cfg beh sched fuel
    induction fuel with
    | zero => intro st t fired wsL b hd htc; cases hd
    | succ fuel ih =>
      intro st t fired wsL b hd htc hbf hP hfin
      have hq : st.queue ≠ [] := by
        intro hnil
        rw [run, if_pos (by simp [hnil])] at hd htc
        simp at htc
      cases ho : (tick cfg beh sched st).2.2 with
      | err =>
        rw [run_succ_err hq ho] at hd
        rcases List.mem_append.mp hd with h1 | h2
        · exact (tick_finished_elim h1).elim
        · simp at h2
      | ok =>
        have htt : (tick cfg beh sched st).1.t = minTime st.queue := tick_t cfg beh sched st
        by_cases hend : cfg.final_time ≤ (tick cfg beh sched st).1.t
        · exfalso
          rw [run_succ_done hq ho hend] at htc
          have htm : t = minTime st.queue := by
            rcases List.mem_append.mp htc with h1 | h2
            · exact (tick_tickCompleted_elim h1).1
            · rcases List.mem_cons.mp h2 with heq | h3
              · exact Event.noConfusion heq
              · rcases List.mem_cons.mp h3 with heq | h4
                · exact Event.noConfusion heq
                · cases h4
          rw [htt, ← htm] at hend
          omega
        · rw [run_succ_step hq ho hend] at hd htc ⊢
          have hd2 : Event.Finished .done ∈ run cfg beh sched fuel (tick cfg beh sched st).1 := by
            rcases List.mem_append.mp hd with h1 | h2
            · exact (tick_finished_elim h1).elim
            · exact h2
          rcases List.mem_append.mp htc with h1 | h2
          · obtain ⟨htm, hfl⟩ := tick_tickCompleted_elim h1
            obtain ⟨bn, bk⟩ := b
            have hen :
                ({ fire_time := minTime st.queue + (blk cfg (bn, bk)).period, node := bn,
                      block := bk, reason := Reason.Periodic } : QEntry) ∈
                  (tick cfg beh sched st).1.queue :=
              tick_ok_resched ho (hfl ▸ hbf) hP
            have hv : ((bn, bk) : Blk) ∈ allBlocksList cfg := by
              rw [hfl] at hbf
              exact (mem_blockList.mp hbf).1
            obtain ⟨f2, w2, htc2, hm2⟩ := run_entry_fires cfg beh sched fuel
              (tick cfg beh sched st).1 _ hen hv (by simpa [htm] using hfin) hd2
            refine ⟨f2, w2, ?_, hm2⟩
            rw [htm]
            exact List.mem_append_right _ htc2
          · obtain ⟨f2, w2, htc2, hm2⟩ := ih (tick cfg beh sched st).1 t fired wsL b
              hd2 h2 hbf hP hfin
            exact ⟨f2, w2, List.mem_append_right _ htc2, hm2⟩

open OBN in
theorem C4_reschedule_completeness_witness :
    (({ fire_time := 1000, node := 0, block := 0, reason := Reason.Periodic } : QEntry) ∈
        (tick demo1 allAck idSched (initState demo1)).1.queue) ∧
      ∃ fired2 wsL2,
        Event.TickCompleted 1000 fired2 wsL2 ∈ run demo1 allAck idSched 8 (initState demo1) ∧
          ((0, 0) : Blk) ∈ fired2 := by
  constructor
  · exact C4_reschedule_completeness.1 demo1 allAck idSched (initState demo1) (0, 0)
      (by decide) (by decide) (by decide)
  · exact C4_reschedule_completeness.2 demo1 allAck idSched 8 (initState demo1) 0
      [(0, 0)] [[(0, 0)]] (0, 0) (by decide) (by decide) (by decide) (by decide) (by decide)

namespace OBN

lemma procAcks_fst_char (mkAck : Nat → Event) :
    ∀ (arr : List Nat) (pending : Finset Nat),
      (procAcks mkAck arr pending).1 = pending \ arr.toFinset := by
  intro arr
  induction arr with
  | nil => intro pending; simp [procAcks]
  | cons a rest ih =>
    intro pending
    simp only [procAcks]
    split
    · rename_i ha
      show (procAcks mkAck rest (pending.erase a)).1 = _
      rw [ih (pending.erase a)]
      ext x
      simp only [Finset.mem_sdiff, Finset.mem_erase, List.toFinset_cons, Finset.mem_insert]
      tauto
    · rename_i ha
      rw [ih pending]
      ext x
      simp only [Finset.mem_sdiff, List.toFinset_cons, Finset.mem_insert]
      constructor
      · rintro ⟨hxp, hxr⟩
        refine ⟨hxp, ?_⟩
        rintro (rfl | hr)
        · exact ha hxp
        · exact hxr hr
      · rintro ⟨hxp, hno⟩
        exact ⟨hxp, fun hr => hno (Or.inr hr)⟩

lemma phase_snd_sched (mkSend : Bool → Nat → Event) (mkAck : Nat → Event)
    (ack1 ack2 : Nat → Bool) (s1 s2 s1' s2' : List Nat → List Nat) (ns : List Nat)
    (h1 : ∀ l, (s1 l).toFinset = (s1' l).toFinset)
    (h2 : ∀ l, (s2 l).toFinset = (s2' l).toFinset) :
    (phase mkSend mkAck ack1 ack2 s1 s2 ns).2 =
      (phase mkSend mkAck ack1 ack2 s1' s2' ns).2 := by
  have hp1 : (procAcks mkAck (s1 (List.filter ack1 ns)) ns.toFinset).1 =
      (procAcks mkAck (s1' (List.filter ack1 ns)) ns.toFinset).1 := by
    rw [procAcks_fst_char, procAcks_fst_char, h1]
  by_cases hp : (procAcks mkAck (s1 (List.filter ack1 ns)) ns.toFinset).1 = ∅
  · rw [phase_snd_pos mkSend mkAck ack1 ack2 s1 s2 ns hp,
      phase_snd_pos mkSend mkAck ack1 ack2 s1' s2' ns (hp1 ▸ hp)]
  · rw [phase_snd_neg mkSend mkAck ack1 ack2 s1 s2 ns hp,
      phase_snd_neg mkSend mkAck ack1 ack2 s1' s2' ns (fun hc => hp (hp1.trans hc))]
    simp only [procAcks_fst_char, h1, h2]

lemma runWaves_snd_sched (cfg : SystemConfig) (beh : NodeBehavior)
    (sched1 sched2 : AckSchedule) (t : Nat)
    (hTF : ∀ tv p l, (sched1 tv p l).toFinset = (sched2 tv p l).toFinset) :
    ∀ (ws : List (Finset Blk)) (wi : Nat),
      (runWaves cfg beh sched1 t wi ws).2 = (runWaves cfg beh sched2 t wi ws).2 := by
  intro ws
  induction ws with
  | nil => intro wi; rfl
  | cons w rest ih =>
    intro wi
    simp only [runWaves]
    have hph := phase_snd_sched
      (fun rs n => .SendY t n (maskOf (blockList cfg w) n) rs)
      (fun n => .AckY t n (maskOf (blockList cfg w) n))
      (beh.ack t (.y wi false)) (beh.ack t (.y wi true))
      (sched1 t (.y wi false)) (sched1 t (.y wi true))
      (sched2 t (.y wi false)) (sched2 t (.y wi true))
      (nodesOf (blockList cfg w))
      (fun l => hTF t (.y wi false) l) (fun l => hTF t (.y wi true) l)
    by_cases hr : (phase
        (fun rs n => Event.SendY t n (maskOf (blockList cfg w) n) rs)
        (fun n => Event.AckY t n (maskOf (blockList cfg w) n))
        (beh.ack t (.y wi false)) (beh.ack t (.y wi true))
        (sched1 t (.y wi false)) (sched1 t (.y wi true))
        (nodesOf (blockList cfg w))).2 = ∅
    · rw [if_pos hr, if_pos (hph ▸ hr)]
      exact ih (wi + 1)
    · rw [if_neg hr, if_neg (fun hc => hr (hph.trans hc))]
      exact congrArg some hph


lemma filterMap_tcOf_runWaves (cfg : SystemConfig) (beh : NodeBehavior) (sched : AckSchedule)
    (t wi : Nat) (ws : List (Finset Blk)) :
    List.filterMap tcOf (runWaves cfg beh sched t wi ws).1 = [] := by
  rw [List.filterMap_eq_nil_iff]
  intro e he
  rcases runWaves_events _ _ _ _ _ _ _ he with ⟨_, _, _, rfl⟩ | ⟨_, _, rfl⟩ <;> rfl

lemma filterMap_tcOf_xphase (cfg : SystemConfig) (beh : NodeBehavior) (sched : AckSchedule)
    (m : Nat) (firedL : List Blk) :
    List.filterMap tcOf (tickXPhase cfg beh sched m firedL).1 = [] := by
  rw [List.filterMap_eq_nil_iff]
  intro e he
  rcases tickXPhase_events _ _ _ _ _ _ he with ⟨_, _, _, rfl⟩ | ⟨_, _, rfl⟩ <;> rfl

lemma filterMap_tcOf_ntos (l : List Nat) :
    List.filterMap tcOf (l.map (fun n => Event.NodeTimedOut n)) = [] := by
  rw [List.filterMap_eq_nil_iff]
  intro e he
  obtain ⟨n, _, rfl⟩ := List.mem_map.mp he
  rfl

lemma filterMap_tcOf_nto_comp (l : List Nat) :
    List.filterMap (tcOf ∘ fun n => Event.NodeTimedOut n) l = [] := by
  rw [List.filterMap_eq_nil_iff]
  intro a _
  rfl

lemma tick_sched (cfg : SystemConfig) (beh : NodeBehavior) (sched1 sched2 : AckSchedule)
    (st : GCState)
    (hTF : ∀ t p l, (sched1 t p l).toFinset = (sched2 t p l).toFinset) :
    (tick cfg beh sched1 st).1 = (tick cfg beh sched2 st).1 ∧
      (tick cfg beh sched1 st).2.2 = (tick cfg beh sched2 st).2.2 ∧
      tickCompleteds (tick cfg beh sched1 st).2.1 =
        tickCompleteds (tick cfg beh sched2 st).2.1 := by
  cases hw : waves cfg (tickFired cfg st.queue) with
  | none =>
    simp [tick, hw]
  | some ws =>
    have hy2 := runWaves_snd_sched cfg beh sched1 sched2 (minTime st.queue) hTF ws 0
    cases hy : (runWaves cfg beh sched1 (minTime st.queue) 0 ws).2 with
    | some touts =>
      have hy2' : (runWaves cfg beh sched2 (minTime st.queue) 0 ws).2 = some touts :=
        hy2.symm.trans hy
      rw [tick_yfail hw hy, tick_yfail hw hy2']
      refine ⟨rfl, rfl, ?_⟩
      simp [tickCompleteds, List.filterMap_append, filterMap_tcOf_runWaves,
        filterMap_tcOf_ntos, filterMap_tcOf_nto_comp, tcOf]
    | none =>
      have hy2' : (runWaves cfg beh sched2 (minTime st.queue) 0 ws).2 = none :=
        hy2.symm.trans hy
      have hxeq : (tickXPhase cfg beh sched1 (minTime st.queue)
            (blockList cfg (tickFired cfg st.queue))).2 =
          (tickXPhase cfg beh sched2 (minTime st.queue)
            (blockList cfg (tickFired cfg st.queue))).2 :=
        phase_snd_sched _ _ _ _ _ _ _ _ _
          (fun l => hTF (minTime st.queue) (.x false) l)
          (fun l => hTF (minTime st.queue) (.x true) l)
      by_cases hx : (tickXPhase cfg beh sched1 (minTime st.queue)
          (blockList cfg (tickFired cfg st.queue))).2 = ∅
      · simp only [tick, hw, hy, hy2']
        rw [if_pos hx, if_pos (hxeq ▸ hx)]
        refine ⟨rfl, rfl, ?_⟩
        simp [tickCompleteds, List.filterMap_append, filterMap_tcOf_runWaves,
          filterMap_tcOf_xphase, tcOf]
      · simp only [tick, hw, hy, hy2']
        rw [if_neg hx, if_neg (fun hc => hx (hxeq.trans hc))]
        refine ⟨?_, rfl, ?_⟩
        · rw [hxeq]
        · simp [tickCompleteds, List.filterMap_append, filterMap_tcOf_runWaves,
            filterMap_tcOf_xphase, filterMap_tcOf_ntos, filterMap_tcOf_nto_comp, tcOf]

end OBN

open OBN in
/-- Claim C2: determinism under ack arrival order. Two runs with the same configuration, behaviour and initial state, whose ack schedules are pointwise permutations of each other (acks arrive in any order with the same payloads), produce the same sequence of TickCompleted reports (t, fired set in registration order, wave partition). -/
theorem C2_determinism :
    ∀ (cfg : SystemConfig) (beh : NodeBehavior) (sched1 sched2 : AckSchedule),
      (∀ t p l, List.Perm (sched1 t p l) (sched2 t p l)) →
      ∀ (fuel : Nat) (st : GCState),
        tickCompleteds (run cfg beh sched1 fuel st) =
          tickCompleteds (run cfg beh sched2 fuel st) := by
  intro cfg beh sched1 sched2 hperm
  have hTF : ∀ t p l, (sched1 t p l).toFinset = (sched2 t p l).toFinset :=
    fun t p l => List.toFinset_eq_of_perm _ _ (hperm t p l)
  intro fuel
  induction fuel with
  | zero => intro st; rfl
  | succ fuel ih =>
    intro st
    by_cases hq : st.queue = []
    · have hq2 : st.queue.isEmpty = true := by simp [hq]
      simp only [run]
      rw [if_pos hq2, if_pos hq2]
    · have ht := tick_sched cfg beh sched1 sched2 st hTF
      have ht2 := ht.2.2
      rw [tickCompleteds, tickCompleteds] at ht2
      cases ho : (tick cfg beh sched1 st).2.2 with
      | err =>
        have ho2 : (tick cfg beh sched2 st).2.2 = Outcome.err := ht.2.1.symm.trans ho
        rw [run_succ_err hq ho, run_succ_err hq ho2, tickCompleteds, tickCompleteds,
          List.filterMap_append, List.filterMap_append, ht2]
      | ok =>
        have ho2 : (tick cfg beh sched2 st).2.2 = Outcome.ok := ht.2.1.symm.trans ho
        by_cases hfin : cfg.final_time ≤ (tick cfg beh sched1 st).1.t
        · rw [run_succ_done hq ho hfin, run_succ_done hq ho2 (ht.1 ▸ hfin),
            tickCompleteds, tickCompleteds, List.filterMap_append, List.filterMap_append,
            ht2, ht.1]
        · rw [run_succ_step hq ho hfin,
            run_succ_step hq ho2 (fun hc => hfin (by rw [ht.1]; exact hc)),
            tickCompleteds, tickCompleteds, List.filterMap_append, List.filterMap_append,
            ht2, ht.1]
          have hih := ih (tick cfg beh sched2 st).1
          rw [tickCompleteds, tickCompleteds] at hih
          rw [hih]

open OBN in
theorem C2_determinism_witness :
    tickCompleteds (run demo1 allAck idSched 8 (initState demo1)) =
      tickCompleteds (run demo1 allAck revSched 8 (initState demo1)) :=
  C2_determinism demo1 allAck idSched revSched
    (fun _ _ l => (List.reverse_perm l).symm) 8 (initState demo1)
